import Mathlib

/-!
Verification of the per-frame pipeline scheduler of the Savannah base station
(agora.cc, agora_worker.cc).  The definitions below are shallow embeddings of
the C++ source: pure scheduling routines become Lean functions on explicit
state, machine integers become Nat with explicit wrap where overflow matters,
and the lock-free queues become lists.
-/

namespace Savannah

/-- A task tag carrying frame id, symbol id and one context-dependent inner id
(antenna index, subcarrier base, code-block index or user index), as produced
by the gen_tag_t constructors used in agora.cc. -/
structure GenTag where
  frame_id : Nat
  symbol_id : Nat
  inner_id : Nat
  deriving Repr, DecidableEq

/-- Event kinds of the scheduler task queues that agora.cc enqueues work on. -/
inductive EvType where
  | kFFT
  | kIFFT
  | kBeam
  | kDemul
  | kPrecode
  | kEncode
  | kDecode
  | kBroadcast
  deriving Repr, DecidableEq

/-- One enqueue onto a worker task queue: the event kind, the parity bucket
index (qid) and the tag list of the event, as passed to
MessageInfo EnqueueEventTaskQueue. -/
structure TaskEnq where
  event_type : EvType
  qid : Nat
  tags : List GenTag
  deriving Repr, DecidableEq

/-- Loop body of Agora ScheduleAntennas (agora.cc lines 171-181): emit the
remaining blocks of antenna tags; blocks counts down, so blocks = 1 emits the
final event, which carries the remainder rem when rem is positive.  The
antenna id is incremented across tags exactly as base_tag.ant_id is. -/
def batchBlocks (ev : EvType) (f s B rem : Nat) : Nat → Nat → List TaskEnq
  | 0, _ => []
  | blocks + 1, ant =>
    let ntags := if blocks = 0 && rem > 0 then rem else B
    { event_type := ev, qid := f &&& 1,
      tags := (List.range' ant ntags).map fun a => ⟨f, s, a⟩ } ::
      batchBlocks ev f s B rem blocks (ant + ntags)

/-- Agora ScheduleAntennas (agora.cc lines 157-182): batch bsAntNum antenna
tags for frame f, symbol s into events of fftBlockSize tags each; when the
block size does not divide the antenna count one extra event carries the
remainder. -/
def scheduleAntennas (ev : EvType) (f s bsAntNum fftBlockSize : Nat) : List TaskEnq :=
  let num_remainder := bsAntNum % fftBlockSize
  let num_blocks := bsAntNum / fftBlockSize + (if num_remainder > 0 then 1 else 0)
  batchBlocks ev f s fftBlockSize num_remainder num_blocks 0

/-- Total number of tags emitted by n antenna blocks. -/
def blocksTotal (B rem : Nat) : Nat → Nat
  | 0 => 0
  | n + 1 => n * B + (if rem > 0 then rem else B)

theorem batchBlocks_succ (ev : EvType) (f s B rem n ant : Nat) :
    batchBlocks ev f s B rem (n + 1) ant =
      { event_type := ev, qid := f &&& 1,
        tags := (List.range' ant (if n = 0 && rem > 0 then rem else B)).map
          fun a => ⟨f, s, a⟩ } ::
      batchBlocks ev f s B rem n (ant + (if n = 0 && rem > 0 then rem else B)) := rfl

theorem batchBlocks_flatten (ev : EvType) (f s B rem : Nat) :
    ∀ n ant, ((batchBlocks ev f s B rem n ant).map TaskEnq.tags).flatten =
      (List.range' ant (blocksTotal B rem n)).map fun a => ⟨f, s, a⟩ := by
  intro n
  induction n with
  | zero => intro ant; simp [batchBlocks, blocksTotal]
  | succ m ih =>
    intro ant
    rw [batchBlocks_succ]
    simp only [List.map_cons, List.flatten_cons, ih]
    rw [← List.map_append, List.range'_append_1]
    congr 1
    cases m with
    | zero => simp [blocksTotal]
    | succ k =>
      simp only [blocksTotal]
      simp only [Nat.succ_ne_zero, decide_False, Bool.false_and, Bool.false_eq_true,
        if_false]
      ring

theorem batchBlocks_len_of_rem_zero (ev : EvType) (f s B : Nat) :
    ∀ n ant e, e ∈ batchBlocks ev f s B 0 n ant → e.tags.length = B := by
  intro n
  induction n with
  | zero => intro ant e h; simp [batchBlocks] at h
  | succ m ih =>
    intro ant e h
    simp only [batchBlocks, List.mem_cons] at h
    rcases h with h | h
    · subst h; simp
    · exact ih _ _ h

theorem batchBlocks_last_of_rem_pos (ev : EvType) (f s B rem : Nat) (hrem : 0 < rem) :
    ∀ n ant, 0 < n → ∃ last, (batchBlocks ev f s B rem n ant).getLast? = some last ∧
      last.tags.length = rem := by
  intro n
  induction n with
  | zero => intro ant h; omega
  | succ m ih =>
    intro ant _
    cases m with
    | zero =>
      refine ⟨_, rfl, ?_⟩
      simp [batchBlocks, hrem]
    | succ k =>
      obtain ⟨last, hl, hlen⟩ := ih (ant + (if k + 1 = 0 && rem > 0 then rem else B))
        (Nat.succ_pos k)
      refine ⟨last, ?_, hlen⟩
      rw [batchBlocks_succ, batchBlocks_succ, List.getLast?_cons_cons,
        ← batchBlocks_succ]
      exact hl

theorem blocksTotal_succ_pos (B rem n : Nat) (h : 0 < rem) :
    blocksTotal B rem (n + 1) = n * B + rem := by
  show n * B + (if rem > 0 then rem else B) = n * B + rem
  rw [if_pos h]

theorem blocksTotal_succ_zero (B n : Nat) :
    blocksTotal B 0 (n + 1) = n * B + B := by
  show n * B + (if 0 > 0 then 0 else B) = n * B + B
  rw [if_neg (by omega : ¬ ((0 : Nat) > 0))]

theorem blocksTotal_num_blocks (A B : Nat) :
    blocksTotal B (A % B) (A / B + if A % B > 0 then 1 else 0) = A := by
  have hdm : B * (A / B) + A % B = A := Nat.div_add_mod A B
  have h0 : ¬ ((0 : Nat) > 0) := by omega
  rcases Nat.eq_zero_or_pos (A % B) with h | h
  · rw [h, if_neg h0, Nat.add_zero]
    rcases Nat.eq_zero_or_pos (A / B) with h2 | h2
    · rw [h2, h] at hdm
      rw [h2]
      simp only [blocksTotal]
      omega
    · obtain ⟨k, hk⟩ := Nat.exists_eq_succ_of_ne_zero (Nat.pos_iff_ne_zero.mp h2)
      rw [hk, h] at hdm
      rw [hk, blocksTotal_succ_zero]
      have hstep : k * B + B = B * (k + 1) + 0 := by ring
      rw [hstep, hdm]
  · rw [if_pos h, blocksTotal_succ_pos _ _ _ h]
    have hstep : A / B * B + A % B = B * (A / B) + A % B := by ring
    rw [hstep, hdm]

/-- C4: antenna batching of ScheduleAntennas is exact.  If the block size B
divides the antenna count A then every emitted event carries exactly B tags;
otherwise the last emitted event carries A mod B tags; in both cases the
concatenation of the emitted tags is exactly one tag per antenna id 0..A-1 in
ascending order (hence the total tag count equals A). -/
theorem scheduleAntennas_batching (ev : EvType) (f s A B : Nat) (hB : 0 < B) :
    ((B ∣ A) → ∀ e ∈ scheduleAntennas ev f s A B, e.tags.length = B) ∧
    (¬(B ∣ A) → ∃ last, (scheduleAntennas ev f s A B).getLast? = some last ∧
      last.tags.length = A % B) ∧
    ((scheduleAntennas ev f s A B).map TaskEnq.tags).flatten =
      (List.range A).map (fun a => ⟨f, s, a⟩) ∧
    (((scheduleAntennas ev f s A B).map TaskEnq.tags).flatten.length = A) := by
  have hjoin : ((scheduleAntennas ev f s A B).map TaskEnq.tags).flatten =
      (List.range A).map (fun a => (⟨f, s, a⟩ : GenTag)) := by
    rw [scheduleAntennas, batchBlocks_flatten, blocksTotal_num_blocks A B,
      List.range'_eq_map_range]
    simp
  refine ⟨?_, ?_, hjoin, by rw [hjoin]; simp⟩
  · intro hdvd e he
    have hrem : A % B = 0 := Nat.mod_eq_zero_of_dvd hdvd
    rw [scheduleAntennas] at he
    simp only [hrem] at he
    exact batchBlocks_len_of_rem_zero ev f s B _ _ e he
  · intro hndvd
    have hrem : 0 < A % B := Nat.pos_of_ne_zero fun h =>
      hndvd (Nat.dvd_of_mod_eq_zero h)
    have hblocks : 0 < A / B + (if A % B > 0 then 1 else 0) := by
      simp [hrem]
    obtain ⟨last, hl, hlen⟩ :=
      batchBlocks_last_of_rem_pos ev f s B (A % B) hrem _ 0 hblocks
    exact ⟨last, by rw [scheduleAntennas]; exact hl, hlen⟩

/-- Witness for C4 at A = 5 antennas, B = 2: the claim hypotheses hold at a
concrete input and the batching facts evaluate there. -/
theorem scheduleAntennas_batching_witness :
    0 < 2 ∧ (¬((2 : Nat) ∣ 5) → ∃ last,
      (scheduleAntennas .kFFT 1 2 5 2).getLast? = some last ∧
      last.tags.length = 5 % 2) :=
  ⟨by decide, (scheduleAntennas_batching .kFFT 1 2 5 2 (by decide)).2.1⟩

/-- Direction of a link, selecting which LDPC configuration applies
(Direction in symbols.h). -/
inductive Dir where
  | uplink
  | downlink
  deriving Repr, DecidableEq

/-- Configuration values read by the scheduling routines (Config accessors
used in agora.cc). -/
structure AgoraCfg where
  demulEventsPerSymbol : Nat
  demulBlockSize : Nat
  beamEventsPerSymbol : Nat
  beamBlockSize : Nat
  encodeBlockSize : Nat
  spatialStreamsNum : Nat
  ulNumBlocksInSymbol : Nat
  dlNumBlocksInSymbol : Nat
  deriving Repr, DecidableEq

/-- Blocks-in-symbol of the LDPC configuration for a direction. -/
def AgoraCfg.numBlocksInSymbol (cfg : AgoraCfg) : Dir → Nat
  | .uplink => cfg.ulNumBlocksInSymbol
  | .downlink => cfg.dlNumBlocksInSymbol

/-- Agora ScheduleSubcarriers (agora.cc lines 222-253): emit num_events
single-tag events whose subcarrier base advances by block_size each
iteration, on parity bucket frame mod 2.  kDemul and kPrecode use the demul
sizing with a frame-symbol-subcarrier tag, kBeam the beam sizing with a
frame-subcarrier tag; any other event kind hits the fatal RtAssert branch,
modelled as none. -/
def scheduleSubcarriers (cfg : AgoraCfg) (ev : EvType) (f s : Nat) :
    Option (List TaskEnq) :=
  match ev with
  | .kDemul | .kPrecode =>
    some ((List.range' 0 cfg.demulEventsPerSymbol cfg.demulBlockSize).map
      fun sc => { event_type := ev, qid := f &&& 1, tags := [⟨f, s, sc⟩] })
  | .kBeam =>
    some ((List.range' 0 cfg.beamEventsPerSymbol cfg.beamBlockSize).map
      fun sc => { event_type := ev, qid := f &&& 1, tags := [⟨f, 0, sc⟩] })
  | _ => none

/-- Agora ScheduleCodeblocks (agora.cc lines 255-279): batch the
spatial-streams times blocks-in-symbol code-block tags into events of
encodeBlockSize tags each, the last event carrying the remainder, on parity
bucket frame mod 2; code-block ids ascend across the events exactly as
base_tag.cb_id does. -/
def scheduleCodeblocks (cfg : AgoraCfg) (ev : EvType) (d : Dir) (f symIdx : Nat) :
    List TaskEnq :=
  let num_tasks := cfg.spatialStreamsNum * cfg.numBlocksInSymbol d
  let num_remainder := num_tasks % cfg.encodeBlockSize
  let num_blocks := num_tasks / cfg.encodeBlockSize +
    (if num_remainder > 0 then 1 else 0)
  batchBlocks ev f symIdx cfg.encodeBlockSize num_remainder num_blocks 0

/-- Agora ScheduleBroadCastSymbols (agora.cc lines 294-299): a single event
carrying the frame-symbol tag, on parity bucket frame mod 2. -/
def scheduleBroadCastSymbols (ev : EvType) (f : Nat) : List TaskEnq :=
  [{ event_type := ev, qid := f &&& 1, tags := [⟨f, 0, 0⟩] }]

/-- Inner loop of Agora TryScheduleFft (agora.cc lines 308-336): pop the given
number of blocks of fftBlockSize tags from the front of the per-slot FFT
queue, emitting one kFFT event per block on parity bucket sche mod 2.  The
fft_created_count statistics updates and the BigstationMode schedule-frame
increment are omitted here: they do not touch the emitted events or the
queue. -/
def fftBlocks (sche B : Nat) : Nat → List GenTag → List TaskEnq × List GenTag
  | 0, q => ([], q)
  | n + 1, q =>
    let e : TaskEnq := { event_type := .kFFT, qid := sche &&& 1, tags := q.take B }
    let r := fftBlocks sche B n (q.drop B)
    (e :: r.1, r.2)

/-- Agora TryScheduleFft (agora.cc lines 301-338) restricted to its effect on
the current-slot FFT queue and the task queue: when at least fftBlockSize tags
are queued, emit len / fftBlockSize kFFT events of fftBlockSize tags each,
consuming tags from the queue front. -/
def tryScheduleFft (sche B : Nat) (cur_fftq : List GenTag) :
    List TaskEnq × List GenTag :=
  if cur_fftq.length ≥ B then fftBlocks sche B (cur_fftq.length / B) cur_fftq
  else ([], cur_fftq)

theorem batchBlocks_qid (ev : EvType) (f s B rem : Nat) :
    ∀ n ant e, e ∈ batchBlocks ev f s B rem n ant →
      e.qid = f % 2 ∧ ∀ t ∈ e.tags, t.frame_id = f := by
  intro n
  induction n with
  | zero => intro ant e h; simp [batchBlocks] at h
  | succ m ih =>
    intro ant e h
    rw [batchBlocks_succ] at h
    rcases List.mem_cons.mp h with h | h
    · subst h
      refine ⟨Nat.and_one_is_mod f, ?_⟩
      intro t ht
      simp only [List.mem_map] at ht
      obtain ⟨a, _, rfl⟩ := ht
      rfl
    · exact ih _ _ h

theorem fftBlocks_qid (sche B : Nat) :
    ∀ n q e, e ∈ (fftBlocks sche B n q).1 →
      e.qid = sche % 2 ∧ ∀ t ∈ e.tags, t ∈ q := by
  intro n
  induction n with
  | zero => intro q e h; simp [fftBlocks] at h
  | succ m ih =>
    intro q e h
    simp only [fftBlocks, List.mem_cons] at h
    rcases h with h | h
    · subst h
      exact ⟨Nat.and_one_is_mod sche, fun t ht => List.take_subset B q ht⟩
    · obtain ⟨hq, htags⟩ := ih (q.drop B) e h
      exact ⟨hq, fun t ht => List.drop_subset B q (htags t ht)⟩

/-- C5: parity routing.  Every task event the scheduler enqueues on the worker
task queues — antenna batches (kFFT and kIFFT via ScheduleAntennas),
subcarrier tasks (kBeam, kDemul, kPrecode via ScheduleSubcarriers), code-block
batches (kEncode, kDecode via ScheduleCodeblocks), broadcast tasks
(kBroadcast) and the FFT batches emitted by TryScheduleFft — uses the parity
bucket index f mod 2, where f is the frame id carried by all of the tags of
that event.  For TryScheduleFft, f is the current schedule frame, whose
per-slot queue holds the tags. -/
theorem task_parity_routing (cfg : AgoraCfg) (d : Dir) (ev : EvType)
    (f s sche B A : Nat) (q : List GenTag) (hq : ∀ t ∈ q, t.frame_id = sche) :
    (∀ e ∈ scheduleAntennas ev f s A B, e.qid = f % 2 ∧
      ∀ t ∈ e.tags, t.frame_id = f) ∧
    (∀ l, scheduleSubcarriers cfg ev f s = some l →
      ∀ e ∈ l, e.qid = f % 2 ∧ ∀ t ∈ e.tags, t.frame_id = f) ∧
    (∀ e ∈ scheduleCodeblocks cfg ev d f s, e.qid = f % 2 ∧
      ∀ t ∈ e.tags, t.frame_id = f) ∧
    (∀ e ∈ scheduleBroadCastSymbols ev f, e.qid = f % 2 ∧
      ∀ t ∈ e.tags, t.frame_id = f) ∧
    (∀ e ∈ (tryScheduleFft sche B q).1, e.qid = sche % 2 ∧
      ∀ t ∈ e.tags, t.frame_id = sche) := by
  refine ⟨?_, ?_, ?_, ?_, ?_⟩
  · intro e he
    exact batchBlocks_qid ev f s B _ _ _ e he
  · intro l hl e he
    cases ev with
    | kFFT => simp [scheduleSubcarriers] at hl
    | kIFFT => simp [scheduleSubcarriers] at hl
    | kEncode => simp [scheduleSubcarriers] at hl
    | kDecode => simp [scheduleSubcarriers] at hl
    | kBroadcast => simp [scheduleSubcarriers] at hl
    | _ =>
      simp only [scheduleSubcarriers, Option.some.injEq] at hl
      subst hl
      simp only [List.mem_map] at he
      obtain ⟨sc, _, rfl⟩ := he
      refine ⟨Nat.and_one_is_mod f, ?_⟩
      intro t ht
      simp only [List.mem_singleton] at ht
      subst ht
      rfl
  · intro e he
    exact batchBlocks_qid ev f s cfg.encodeBlockSize _ _ _ e he
  · intro e he
    simp only [scheduleBroadCastSymbols, List.mem_singleton] at he
    subst he
    refine ⟨Nat.and_one_is_mod f, ?_⟩
    intro t ht
    simp only [List.mem_singleton] at ht
    subst ht
    rfl
  · intro e he
    rw [tryScheduleFft] at he
    by_cases hlen : q.length ≥ B
    · rw [if_pos hlen] at he
      obtain ⟨hqid, htags⟩ := fftBlocks_qid sche B _ q e he
      exact ⟨hqid, fun t ht => hq t (htags t ht)⟩
    · rw [if_neg hlen] at he
      simp at he

/-- Witness for C5: the parity-routing theorem applied at a concrete
configuration, frame and FFT queue. -/
theorem task_parity_routing_witness :
    (∀ t ∈ ([⟨7, 1, 0⟩] : List GenTag), t.frame_id = 7) ∧
    (∀ e ∈ scheduleBroadCastSymbols .kBroadcast 5, e.qid = 5 % 2 ∧
      ∀ t ∈ e.tags, t.frame_id = 5) :=
  ⟨by decide,
    (task_parity_routing ⟨4, 16, 2, 8, 2, 2, 1, 1⟩ .uplink .kBroadcast 5 0 7 2 3
      [⟨7, 1, 0⟩] (by decide)).2.2.2.1⟩

/-- Modelled from the spec: the value of the schedule-processing flag for no
direction complete (ScheduleProcessingFlags in agora.h, which is not part of
this source tree; the spec states the schedule cursor advances when both the
uplink-schedule-complete and downlink-schedule-complete flags are set, and
either flag is pre-asserted when that direction has zero symbols). -/
def kNone : Nat := 0

/-- Modelled from the spec: flag bit for uplink scheduling complete. -/
def kUplinkComplete : Nat := 1

/-- Modelled from the spec: flag bit for downlink scheduling complete. -/
def kDownlinkComplete : Nat := 2

/-- Modelled from the spec: both flags set, the condition on which the
schedule cursor advances. -/
def kProcessingComplete : Nat := 3

/-- Modelled from the spec: kScheduleQueues (symbols.h, not part of this
source tree) is the number of schedule-queue lanes; the message fabric has two
parity buckets, so there are two schedule queues. -/
def kScheduleQueues : Nat := 2

/-- The two frame cursors of the scheduler (FrameInfo in agora_helper.h): the
schedule cursor and the processing cursor. -/
structure FrameInfo where
  cur_sche_frame_id : Nat
  cur_proc_frame_id : Nat
  deriving Repr, DecidableEq

/-- Master-thread scheduler state touched by CheckIncrementScheduleFrame and
CheckFrameComplete: the frame cursors, the schedule-processing flags (a
uint8_t bitmask) and the deferral FIFO of frame ids. -/
structure MasterState where
  frame_tracking : FrameInfo
  schedule_process_flags : Nat
  encode_deferral : List Nat
  deriving Repr, DecidableEq

/-- Agora CheckIncrementScheduleFrame (agora.cc lines 1251-1269): add the
completed flag to the schedule-processing flags (uint8_t, hence mod 256);
when both directions are complete, advance the schedule cursor and reinitialise
the flags, pre-asserting the flag of any direction with zero symbols.  The
source asserts cur_sche_frame_id = frame_id and otherwise ignores frame_id;
the assertion enters the theorems as a precondition. -/
def checkIncrementScheduleFrame (numULSyms numDLSyms : Nat) (st : MasterState)
    (frame_id completed : Nat) : MasterState :=
  let _ := frame_id
  let flags := (st.schedule_process_flags + completed) % 256
  if flags = kProcessingComplete then
    let f0 := kNone
    let f1 := if numULSyms = 0 then f0 + kUplinkComplete else f0
    let f2 := if numDLSyms = 0 then f1 + kDownlinkComplete else f1
    { st with
      frame_tracking := { st.frame_tracking with
        cur_sche_frame_id := st.frame_tracking.cur_sche_frame_id + 1 },
      schedule_process_flags := f2 }
  else { st with schedule_process_flags := flags }

/-- The frame-window invariant stated by the spec:
cur_proc_frame_id ≤ cur_sche_frame_id < cur_proc_frame_id + W. -/
def windowInvariant (W : Nat) (t : FrameInfo) : Prop :=
  t.cur_proc_frame_id ≤ t.cur_sche_frame_id ∧
    t.cur_sche_frame_id < t.cur_proc_frame_id + W

instance (W : Nat) (t : FrameInfo) : Decidable (windowInvariant W t) :=
  inferInstanceAs (Decidable (_ ∧ _))

/-- IsLastSymbol results of the five terminal frame counters consulted by
CheckFrameComplete, for the frame being checked. -/
structure FrameCountersLast where
  ifft_last : Bool
  tx_last : Bool
  decode_last : Bool
  demul_last : Bool
  tomac_last : Bool
  deriving Repr, DecidableEq

/-- Frame-retirement condition of Agora CheckFrameComplete (agora.cc lines
1284-1291): ifft and tx complete, and the uplink terminal stage selected by
the build flags complete. -/
def frameCompleteCond (kEnableMac kUplinkHardDemod : Bool) (c : FrameCountersLast) :
    Bool :=
  c.ifft_last && c.tx_last &&
    ((!kEnableMac && c.decode_last) || (kUplinkHardDemod && c.demul_last) ||
      (kEnableMac && c.tomac_last))

/-- Deferral-release loop of Agora CheckFrameComplete (agora.cc lines
1311-1332): pop and schedule deferred frames while the loop counter is below
kScheduleQueues and the queue front is below the advanced processing cursor
plus kScheduleQueues; the RtAssert that a released frame is not below the
processing cursor is modelled as none (the program aborts).  Returns the
released frame ids in pop order and the remaining queue. -/
def releaseDeferred (proc : Nat) : Nat → List Nat → Option (List Nat × List Nat)
  | 0, q => some ([], q)
  | _ + 1, [] => some ([], [])
  | fuel + 1, d :: q =>
    if d < proc + kScheduleQueues then
      if proc ≤ d then
        match releaseDeferred proc fuel q with
        | some r => some (d :: r.1, r.2)
        | none => none
      else none
    else some ([], d :: q)

/-- Result of CheckFrameComplete: the returned flag, the updated state, and
the deferred frame ids passed to ScheduleDownlinkProcessing. -/
structure CheckFrameResult where
  finished : Bool
  state : MasterState
  released : List Nat
  deriving Repr, DecidableEq

/-- Agora CheckFrameComplete (agora.cc lines 1271-1336) restricted to its
effect on the frame cursors and the deferral queue.  The counter IsLastSymbol
results enter as inputs; the statistics update, the counter resets and the
DlBitsStatus reset touch state outside this model; ScheduleDownlinkProcessing
calls are returned as the released list.  The source asserts frame_id =
cur_proc_frame_id in the retirement branch; the assertion enters the theorems
as a precondition. -/
def checkFrameComplete (kEnableMac kUplinkHardDemod : Bool) (framesToTest : Nat)
    (c : FrameCountersLast) (st : MasterState) (frame_id : Nat) :
    Option CheckFrameResult :=
  if frameCompleteCond kEnableMac kUplinkHardDemod c then
    if frame_id = framesToTest - 1 then
      some { finished := true,
             state := { st with frame_tracking := { st.frame_tracking with
               cur_proc_frame_id := st.frame_tracking.cur_proc_frame_id + 1 } },
             released := [] }
    else
      match releaseDeferred (st.frame_tracking.cur_proc_frame_id + 1)
          kScheduleQueues st.encode_deferral with
      | some r =>
        some { finished := false,
               state := { st with
                 frame_tracking := { st.frame_tracking with
                   cur_proc_frame_id := st.frame_tracking.cur_proc_frame_id + 1 },
                 encode_deferral := r.2 },
               released := r.1 }
      | none => none
  else some { finished := false, state := st, released := [] }

theorem checkIncrementScheduleFrame_proc (numUL numDL : Nat) (st : MasterState)
    (frame_id completed : Nat) :
    (checkIncrementScheduleFrame numUL numDL st frame_id completed).frame_tracking.cur_proc_frame_id = st.frame_tracking.cur_proc_frame_id := by
  rw [checkIncrementScheduleFrame]
  split <;> rfl

theorem checkIncrementScheduleFrame_sche (numUL numDL : Nat) (st : MasterState)
    (frame_id completed : Nat) :
    (checkIncrementScheduleFrame numUL numDL st frame_id completed).frame_tracking.cur_sche_frame_id = st.frame_tracking.cur_sche_frame_id ∨
    (checkIncrementScheduleFrame numUL numDL st frame_id completed).frame_tracking.cur_sche_frame_id = st.frame_tracking.cur_sche_frame_id + 1 := by
  rw [checkIncrementScheduleFrame]
  split
  · right; rfl
  · left; rfl

theorem checkFrameComplete_tracking (mac hard : Bool) (ftt : Nat)
    (c : FrameCountersLast) (st : MasterState) (frame_id : Nat)
    (r : CheckFrameResult)
    (h : checkFrameComplete mac hard ftt c st frame_id = some r) :
    (frameCompleteCond mac hard c = false ∧ r.state = st) ∨
    (frameCompleteCond mac hard c = true ∧
      r.state.frame_tracking.cur_proc_frame_id =
        st.frame_tracking.cur_proc_frame_id + 1 ∧
      r.state.frame_tracking.cur_sche_frame_id =
        st.frame_tracking.cur_sche_frame_id) := by
  rw [checkFrameComplete] at h
  by_cases hc : frameCompleteCond mac hard c = true
  · rw [if_pos hc] at h
    right
    refine ⟨hc, ?_⟩
    by_cases hf : frame_id = ftt - 1
    · rw [if_pos hf] at h
      injection h with h
      subst h
      exact ⟨rfl, rfl⟩
    · rw [if_neg hf] at h
      rcases hrel : releaseDeferred (st.frame_tracking.cur_proc_frame_id + 1)
          kScheduleQueues st.encode_deferral with _ | p
      · rw [hrel] at h
        exact absurd h (by simp)
      · rw [hrel] at h
        injection h with h
        subst h
        exact ⟨rfl, rfl⟩
  · rw [if_neg hc] at h
    injection h with h
    subst h
    exact Or.inl ⟨by simpa using hc, rfl⟩

/-- Scheduler state for the C1 counterexample: window depth 4, cur_sche = 3,
cur_proc = 0, downlink flag pre-asserted as in an uplink-only schedule. -/
def c1CexState : MasterState :=
  { frame_tracking := { cur_sche_frame_id := 3, cur_proc_frame_id := 0 },
    schedule_process_flags := kDownlinkComplete,
    encode_deferral := [] }

/-- C1 counterexample: the cur_sche increment of CheckIncrementScheduleFrame
does not preserve the window invariant in general.  In an uplink-only
configuration (16 uplink, 0 downlink symbols, so the downlink flag is
pre-asserted) with W = 4, cur_sche = 3 and cur_proc = 0, the invariant holds
and the call meets the asserted precondition cur_sche_frame_id = frame_id = 3,
yet the uplink-completion increment yields cur_sche = 4 = cur_proc + W,
violating the upper bound. -/
theorem checkIncrementScheduleFrame_window_cex :
    windowInvariant 4 c1CexState.frame_tracking ∧
    c1CexState.frame_tracking.cur_sche_frame_id = 3 ∧
    ¬ windowInvariant 4
      (checkIncrementScheduleFrame 16 0 c1CexState 3 kUplinkComplete).frame_tracking := by
  decide

/-- C1 amended: the cursor increments preserve the window invariant under the
stated margins.  The cur_sche increment of CheckIncrementScheduleFrame always
preserves the lower bound cur_proc ≤ cur_sche, and preserves the full
invariant whenever cur_sche + 1 < cur_proc + W beforehand (which holds in
particular when the increment is gated by downlink-schedule completion, since
the source then asserts cur_sche = cur_proc); the cur_proc increment of
CheckFrameComplete preserves the invariant whenever cur_proc < cur_sche holds
at retirement. -/
theorem window_invariant_preservation (numUL numDL W : Nat) (st : MasterState)
    (frame_id completed : Nat) (mac hard : Bool) (ftt : Nat)
    (c : FrameCountersLast) (r : CheckFrameResult)
    (hinv : windowInvariant W st.frame_tracking) :
    ((checkIncrementScheduleFrame numUL numDL st frame_id completed).frame_tracking.cur_proc_frame_id ≤
      (checkIncrementScheduleFrame numUL numDL st frame_id completed).frame_tracking.cur_sche_frame_id) ∧
    (st.frame_tracking.cur_sche_frame_id + 1 <
        st.frame_tracking.cur_proc_frame_id + W →
      windowInvariant W
        (checkIncrementScheduleFrame numUL numDL st frame_id completed).frame_tracking) ∧
    (checkFrameComplete mac hard ftt c st frame_id = some r →
      (frameCompleteCond mac hard c = true →
        st.frame_tracking.cur_proc_frame_id < st.frame_tracking.cur_sche_frame_id) →
      windowInvariant W r.state.frame_tracking) := by
  obtain ⟨hlo, hhi⟩ := hinv
  have hproc := checkIncrementScheduleFrame_proc numUL numDL st frame_id completed
  have hsche := checkIncrementScheduleFrame_sche numUL numDL st frame_id completed
  refine ⟨?_, ?_, ?_⟩
  · rcases hsche with h | h <;> rw [hproc, h] <;> omega
  · intro hmargin
    rcases hsche with h | h <;>
      exact ⟨by rw [hproc, h]; omega, by rw [hproc, h]; omega⟩
  · intro hr hcond
    rcases checkFrameComplete_tracking mac hard ftt c st frame_id r hr with
      ⟨_, hst⟩ | ⟨hc, hp, hs⟩
    · rw [hst]; exact ⟨hlo, hhi⟩
    · have := hcond hc
      exact ⟨by rw [hp, hs]; omega, by rw [hp, hs]; omega⟩

/-- Witness for the amended C1 theorem at a concrete state: cur_sche =
cur_proc = 1, W = 4; the margin hypothesis holds and the invariant is
preserved across the schedule-cursor increment. -/
def c1OkState : MasterState :=
  { frame_tracking := { cur_sche_frame_id := 1, cur_proc_frame_id := 1 },
    schedule_process_flags := kDownlinkComplete,
    encode_deferral := [] }

theorem window_invariant_preservation_witness :
    windowInvariant 4 c1OkState.frame_tracking ∧
    windowInvariant 4
      (checkIncrementScheduleFrame 16 0 c1OkState 1 kUplinkComplete).frame_tracking :=
  ⟨by decide,
    (window_invariant_preservation 16 0 4 c1OkState 1 kUplinkComplete false false
      10 ⟨true, true, true, true, true⟩ ⟨false, c1OkState, []⟩
      (by decide)).2.1 (by decide)⟩

theorem releaseDeferred_spec (proc : Nat) :
    ∀ fuel q rel q2, releaseDeferred proc fuel q = some (rel, q2) →
      rel.length ≤ fuel ∧ rel = q.take rel.length ∧ q2 = q.drop rel.length ∧
      ∀ d ∈ rel, proc ≤ d ∧ d < proc + kScheduleQueues := by
  intro fuel
  induction fuel with
  | zero =>
    intro q rel q2 h
    rw [releaseDeferred] at h
    injection h with h
    injection h with ha hb
    subst ha
    subst hb
    simp
  | succ n ih =>
    intro q rel q2 h
    cases q with
    | nil =>
      rw [releaseDeferred] at h
      injection h with h
      injection h with ha hb
      subst ha
      subst hb
      simp
    | cons d t =>
      rw [releaseDeferred] at h
      by_cases h1 : d < proc + kScheduleQueues
      · rw [if_pos h1] at h
        by_cases h2 : proc ≤ d
        · rw [if_pos h2] at h
          rcases hrec : releaseDeferred proc n t with _ | p
          · rw [hrec] at h
            exact absurd h (by simp)
          · rw [hrec] at h
            injection h with h
            obtain ⟨hrel, hq2⟩ := Prod.mk.injEq .. ▸ h
            obtain ⟨hlen, htake, hdrop, hmem⟩ := ih t p.1 p.2 (by rw [hrec])
            subst hrel hq2
            refine ⟨by simpa using Nat.succ_le_succ hlen, ?_, ?_, ?_⟩
            · simp only [List.length_cons, List.take_succ_cons]
              exact congrArg (d :: ·) htake
            · simp only [List.length_cons, List.drop_succ_cons]
              exact hdrop
            · intro x hx
              rcases List.mem_cons.mp hx with hx | hx
              · subst hx; exact ⟨h2, h1⟩
              · exact hmem x hx
        · rw [if_neg h2] at h
          exact absurd h (by simp)
      · rw [if_neg h1] at h
        injection h with h
        injection h with ha hb
        subst ha
        subst hb
        simp
/-- Master state for the C3 counterexample: frame 0 about to retire with
deferral queue [2, 1] — frame 2 was deferred first because it arrived at
least kScheduleQueues ahead of cur_proc, then frame 1 was deferred because
the queue was already nonempty. -/
def c3CexState : MasterState :=
  { frame_tracking := { cur_sche_frame_id := 3, cur_proc_frame_id := 0 },
    schedule_process_flags := 0,
    encode_deferral := [2, 1] }

/-- C3 counterexample: one frame retirement can release two deferred frames,
not at most one.  Retiring frame 0 with deferral queue [2, 1] advances
cur_proc to 1, and the release loop of CheckFrameComplete pops and schedules
both queued frames (both ids are below cur_proc + kScheduleQueues = 3). -/
theorem checkFrameComplete_release_cex :
    (checkFrameComplete false false 100 ⟨true, true, true, true, true⟩
        c3CexState 0).map CheckFrameResult.released = some [2, 1] ∧
    ¬ ((2 : Nat) ≤ 1) := by
  decide

/-- C3 amended: on each retiring call of CheckFrameComplete that does not end
the run, the deferral release is FIFO and horizon-bounded — the released
frames form a prefix of the deferral queue (arrival order), at most
kScheduleQueues (= 2, not one) frames are popped, every released id lies
below the advanced cur_proc_frame_id + kScheduleQueues, and the remaining
queue is the matching suffix. -/
theorem checkFrameComplete_release (mac hard : Bool) (ftt : Nat)
    (c : FrameCountersLast) (st : MasterState) (frame_id : Nat)
    (r : CheckFrameResult)
    (h : checkFrameComplete mac hard ftt c st frame_id = some r)
    (hcond : frameCompleteCond mac hard c = true)
    (hnotlast : frame_id ≠ ftt - 1) :
    r.released.length ≤ kScheduleQueues ∧
    r.released = st.encode_deferral.take r.released.length ∧
    r.state.encode_deferral = st.encode_deferral.drop r.released.length ∧
    ∀ d ∈ r.released,
      d < st.frame_tracking.cur_proc_frame_id + 1 + kScheduleQueues := by
  rw [checkFrameComplete, if_pos hcond, if_neg hnotlast] at h
  rcases hrel : releaseDeferred (st.frame_tracking.cur_proc_frame_id + 1)
      kScheduleQueues st.encode_deferral with _ | p
  · rw [hrel] at h
    exact absurd h (by simp)
  · rw [hrel] at h
    injection h with h
    obtain ⟨hlen, htake, hdrop, hmem⟩ :=
      releaseDeferred_spec (st.frame_tracking.cur_proc_frame_id + 1)
        kScheduleQueues st.encode_deferral p.1 p.2 (by rw [hrel])
    subst h
    exact ⟨hlen, htake, hdrop, fun d hd => (hmem d hd).2⟩

/-- Witness for the amended C3 theorem: the release at the concrete retirement
of the counterexample state obeys the FIFO prefix bound. -/
theorem checkFrameComplete_release_witness :
    (frameCompleteCond false false ⟨true, true, true, true, true⟩ = true) ∧
    ((0 : Nat) ≠ 100 - 1) ∧
    ({ finished := false,
       state := { frame_tracking := { cur_sche_frame_id := 3, cur_proc_frame_id := 1 },
                  schedule_process_flags := 0, encode_deferral := [] },
       released := [2, 1] } : CheckFrameResult).released.length ≤ kScheduleQueues :=
  ⟨by decide, by decide,
    (checkFrameComplete_release false false 100 ⟨true, true, true, true, true⟩
      c3CexState 0
      { finished := false,
        state := { frame_tracking := { cur_sche_frame_id := 3, cur_proc_frame_id := 1 },
                   schedule_process_flags := 0, encode_deferral := [] },
        released := [2, 1] }
      (by decide) (by decide) (by decide)).1⟩

/-- Loop condition of the master event loop in Agora Start (agora.cc line
404): keep running while the running flag holds, no exit signal arrived and
the finish flag is clear. -/
def startLoopCond (running gotExitSignal finish : Bool) : Bool :=
  running && !gotExitSignal && !finish

/-- C9: CheckFrameComplete reports the run finished exactly when the frame it
retires is frame FramesToTest - 1 — finished is true iff the retirement
condition holds and frame_id = framesToTest - 1 — and once finish is set the
Start loop condition is false, so the loop exits (the statistics printing and
saving that follow the loop are I/O outside this model). -/
theorem checkFrameComplete_finished (mac hard : Bool) (framesToTest : Nat)
    (c : FrameCountersLast) (st : MasterState) (frame_id : Nat)
    (r : CheckFrameResult) (hftt : 0 < framesToTest)
    (h : checkFrameComplete mac hard framesToTest c st frame_id = some r) :
    (r.finished = true ↔
      (frameCompleteCond mac hard c = true ∧ frame_id = framesToTest - 1)) ∧
    (∀ running gotExit, startLoopCond running gotExit true = false) := by
  refine ⟨?_, by intro running gotExit; simp [startLoopCond]⟩
  rw [checkFrameComplete] at h
  by_cases hc : frameCompleteCond mac hard c = true
  · rw [if_pos hc] at h
    by_cases hf : frame_id = framesToTest - 1
    · rw [if_pos hf] at h
      injection h with h
      rw [← h]
      simp [hc, hf]
    · rw [if_neg hf] at h
      rcases hrel : releaseDeferred (st.frame_tracking.cur_proc_frame_id + 1)
          kScheduleQueues st.encode_deferral with _ | p
      · rw [hrel] at h
        exact absurd h (by simp)
      · rw [hrel] at h
        injection h with h
        rw [← h]
        simp [hf]
  · rw [if_neg hc] at h
    injection h with h
    rw [← h]
    simp [hc]

/-- Witness for C9 at a concrete retirement: frame 9 of a 10-frame run
finishes. -/
theorem checkFrameComplete_finished_witness :
    (0 : Nat) < 10 ∧
    (checkFrameComplete false false 10 ⟨true, true, true, true, true⟩
        { frame_tracking := { cur_sche_frame_id := 9, cur_proc_frame_id := 9 },
          schedule_process_flags := 0, encode_deferral := [] } 9 = some
      { finished := true,
        state := { frame_tracking := { cur_sche_frame_id := 9, cur_proc_frame_id := 10 },
                   schedule_process_flags := 0, encode_deferral := [] },
        released := [] }) ∧
    (({ finished := true,
        state := { frame_tracking := { cur_sche_frame_id := 9, cur_proc_frame_id := 10 },
                   schedule_process_flags := 0, encode_deferral := [] },
        released := [] } : CheckFrameResult).finished = true ↔
      (frameCompleteCond false false ⟨true, true, true, true, true⟩ = true ∧
        (9 : Nat) = 10 - 1)) :=
  ⟨by decide, by decide,
    (checkFrameComplete_finished false false 10 ⟨true, true, true, true, true⟩
      { frame_tracking := { cur_sche_frame_id := 9, cur_proc_frame_id := 9 },
        schedule_process_flags := 0, encode_deferral := [] } 9
      { finished := true,
        state := { frame_tracking := { cur_sche_frame_id := 9, cur_proc_frame_id := 10 },
                   schedule_process_flags := 0, encode_deferral := [] },
        released := [] }
      (by decide) (by decide)).1⟩

/-- Source polled by one iteration of the master event loop. -/
inductive FetchSource where
  | streamer
  | doer
  deriving Repr, DecidableEq

/-- One iteration of the master event loop in Agora Start (agora.cc lines
404-434) restricted to source selection: the io-turn flag selects
FetchStreamerEvent or FetchDoerEvent for this iteration and is then negated
unconditionally. -/
def startIterSource (is_turn_to_dequeue_from_io : Bool) : FetchSource × Bool :=
  (if is_turn_to_dequeue_from_io then FetchSource.streamer else FetchSource.doer,
    !is_turn_to_dequeue_from_io)

/-- Io-turn flag at the start of iteration n of the master loop, from the
initialisation is_turn_to_dequeue_from_io = true. -/
def ioTurnAt : Nat → Bool
  | 0 => true
  | n + 1 => (startIterSource (ioTurnAt n)).2

/-- Source polled at iteration n of the master loop. -/
def sourceAt (n : Nat) : FetchSource := (startIterSource (ioTurnAt n)).1

/-- C6: strict alternation of the master event loop.  No two consecutive loop
iterations dequeue from the same source: the source of iteration n + 1 always
differs from that of iteration n, and the first iteration polls the
streamer/MAC side. -/
theorem start_loop_alternation (n : Nat) :
    sourceAt (n + 1) ≠ sourceAt n ∧ sourceAt 0 = FetchSource.streamer := by
  constructor
  · cases h : ioTurnAt n <;>
      simp [sourceAt, ioTurnAt, startIterSource, h]
  · rfl

/-- Bucket-selection state of a worker thread in AgoraWorker WorkerThread and
RunWorker: the current parity bucket, the count of empty polls since the last
counter restart, and the empty_queue flag (true on entry to every
iteration). -/
structure WorkerPollState where
  cur_qid : Nat
  empty_queue_itrs : Nat
  empty_queue : Bool
  deriving Repr, DecidableEq

/-- One iteration of the worker main loop (agora_worker.cc lines 258-282)
restricted to bucket control.  found reports whether some kernel TryLaunch
dequeued a task from the current bucket (the for loop sets empty_queue false
and breaks).  Afterwards, an empty iteration advances the empty counter and,
on reaching 5, re-selects the bucket — toggling when the frame cursors
diverge, otherwise setting it to cur_sche mod 2 — and restarts the counter;
a non-empty iteration resets the flag but leaves the counter untouched. -/
def workerIter (frame : FrameInfo) (st : WorkerPollState) (found : Bool) :
    WorkerPollState :=
  let empty_queue := if found then false else st.empty_queue
  if empty_queue then
    if st.empty_queue_itrs + 1 = 5 then
      { cur_qid :=
          if frame.cur_sche_frame_id ≠ frame.cur_proc_frame_id then
            st.cur_qid ^^^ 1
          else frame.cur_sche_frame_id &&& 1,
        empty_queue_itrs := 0,
        empty_queue := empty_queue }
    else { st with empty_queue_itrs := st.empty_queue_itrs + 1,
                   empty_queue := empty_queue }
  else { st with empty_queue := true }

/-- Worker bucket state after five empty polls with equal cursors, starting
from bucket 0. -/
def c7Run : WorkerPollState :=
  (List.range 5).foldl
    (fun st _ => workerIter { cur_sche_frame_id := 0, cur_proc_frame_id := 0 } st false)
    { cur_qid := 0, empty_queue_itrs := 0, empty_queue := true }

/-- C7 counterexample: five consecutive empty iterations do not always flip
the parity bucket.  With cur_sche = cur_proc = 0 a worker polling bucket 0
reaches the 5-empty re-selection, which sets the bucket to cur_sche mod 2 =
0 — the same bucket, not the other one. -/
theorem workerIter_flip_cex :
    c7Run.cur_qid = 0 ∧ c7Run.empty_queue_itrs = 0 ∧ ¬ c7Run.cur_qid = 1 := by
  decide

/-- C7 amended: worker bucket control.  The empty_queue flag is true again on
exit of every iteration; an iteration that found a task leaves both the
bucket and the empty counter unchanged (the counter does not restart); an
empty iteration short of the fifth empty poll only advances the counter; on
the fifth cumulative — not necessarily consecutive — empty poll the counter
restarts and the bucket is re-selected: toggled when cur_sche differs from
cur_proc, otherwise set to cur_sche mod 2, which can leave it unchanged. -/
theorem workerIter_bucket_control (frame : FrameInfo) (st : WorkerPollState)
    (found : Bool) (hst : st.empty_queue = true) :
    ((workerIter frame st found).empty_queue = true) ∧
    (found = true → (workerIter frame st found).cur_qid = st.cur_qid ∧
      (workerIter frame st found).empty_queue_itrs = st.empty_queue_itrs) ∧
    (found = false → st.empty_queue_itrs + 1 = 5 →
      (workerIter frame st found).empty_queue_itrs = 0 ∧
      (workerIter frame st found).cur_qid =
        (if frame.cur_sche_frame_id ≠ frame.cur_proc_frame_id then st.cur_qid ^^^ 1
         else frame.cur_sche_frame_id % 2)) ∧
    (found = false → st.empty_queue_itrs + 1 ≠ 5 →
      (workerIter frame st found).cur_qid = st.cur_qid ∧
      (workerIter frame st found).empty_queue_itrs = st.empty_queue_itrs + 1) := by
  cases found with
  | true =>
    refine ⟨?_, ?_, by intro h; exact absurd h (by simp), by intro h; exact absurd h (by simp)⟩
    · simp [workerIter]
    · intro _
      exact ⟨by simp [workerIter], by simp [workerIter]⟩
  | false =>
    by_cases h5 : st.empty_queue_itrs + 1 = 5
    · refine ⟨?_, by intro h; exact absurd h (by simp), ?_, ?_⟩
      · simp [workerIter, hst, h5]
      · intro _ _
        constructor
        · simp [workerIter, hst, h5]
        · simp only [workerIter, hst, if_true, h5, Nat.and_one_is_mod]
          rfl
      · intro _ hne
        exact absurd h5 hne
    · refine ⟨?_, by intro h; exact absurd h (by simp), ?_, ?_⟩
      · simp [workerIter, hst, h5]
      · intro _ h
        exact absurd h h5
      · intro _ _
        exact ⟨by simp [workerIter, hst, h5], by simp [workerIter, hst, h5]⟩

/-- Witness for the amended C7 theorem at diverged cursors: the fifth empty
poll toggles the bucket from 0 to 1 and restarts the counter. -/
theorem workerIter_bucket_control_witness :
    (({ cur_qid := 0, empty_queue_itrs := 4, empty_queue := true } :
        WorkerPollState).empty_queue = true) ∧
    ((workerIter { cur_sche_frame_id := 3, cur_proc_frame_id := 2 }
        { cur_qid := 0, empty_queue_itrs := 4, empty_queue := true } false).empty_queue_itrs = 0 ∧
      (workerIter { cur_sche_frame_id := 3, cur_proc_frame_id := 2 }
        { cur_qid := 0, empty_queue_itrs := 4, empty_queue := true } false).cur_qid =
        (if (3 : Nat) ≠ 2 then 0 ^^^ 1 else 3 % 2)) :=
  ⟨by decide,
    (workerIter_bucket_control { cur_sche_frame_id := 3, cur_proc_frame_id := 2 }
      { cur_qid := 0, empty_queue_itrs := 4, empty_queue := true } false
      (by decide)).2.2.1 (by decide) (by decide)⟩

/-- A received packet header as the master reads it: frame id and symbol id
(the cell and antenna fields and the payload do not enter the master RX
bookkeeping modelled here). -/
structure RxPkt where
  frame_id : Nat
  symbol_id : Nat
  deriving Repr, DecidableEq

/-- Per-frame-slot RX counters (RxCounters in agora.h) with the per-frame
limits fixed by InitializeCounters; each list has one entry per frame slot. -/
structure RxCounters where
  num_pkts : List Nat
  num_pilot_pkts : List Nat
  num_reciprocity_pkts : List Nat
  num_pilot_pkts_per_frame : Nat
  num_reciprocity_pkts_per_frame : Nat
  num_rx_pkts_per_frame : Nat
  deriving Repr, DecidableEq

/-- Symbol classification read from the configuration (Config IsPilot,
IsCalDlPilot, IsCalUlPilot), fixed at configuration time. -/
structure SymbolKinds where
  isPilot : Nat → Nat → Bool
  isCalDlPilot : Nat → Nat → Bool
  isCalUlPilot : Nat → Nat → Bool

/-- Master state touched by the kPacketRX path: the running flag, the
scheduler state, the RX counters and the per-slot FFT queues. -/
structure AgoraState where
  running : Bool
  master : MasterState
  rx_counters : RxCounters
  fft_queue_arr : List (List RxPkt)
  deriving Repr, DecidableEq

/-- Agora UpdateRxCounters (agora.cc lines 996-1052): tally the packet in its
slot counter (pilot, reciprocity, total), resetting each counter to zero on
reaching its per-frame limit (the source increments then zeroes at the limit;
fused here into one set); on the first packet of a frame with MAC disabled,
either defer the frame downlink scheduling (queue nonempty, or the frame at
least kScheduleQueues ahead of cur_proc) or schedule it now.  The returned
list holds the frames passed to ScheduleDownlinkProcessing; the timestamp and
print calls touch only statistics. -/
def updateRxCounters (W : Nat) (kinds : SymbolKinds) (kEnableMac : Bool)
    (st : AgoraState) (frame_id symbol_id : Nat) : AgoraState × List Nat :=
  let frame_slot := frame_id % W
  let rx0 := st.rx_counters
  let rx1 :=
    if kinds.isPilot frame_id symbol_id then
      let v := rx0.num_pilot_pkts.getD frame_slot 0 + 1
      { rx0 with num_pilot_pkts := (rx0.num_pilot_pkts.set frame_slot
          (if v = rx0.num_pilot_pkts_per_frame then 0 else v)) }
    else if kinds.isCalDlPilot frame_id symbol_id ||
        kinds.isCalUlPilot frame_id symbol_id then
      let v := rx0.num_reciprocity_pkts.getD frame_slot 0 + 1
      { rx0 with num_reciprocity_pkts := (rx0.num_reciprocity_pkts.set frame_slot
          (if v = rx0.num_reciprocity_pkts_per_frame then 0 else v)) }
    else rx0
  let isFirst := rx1.num_pkts.getD frame_slot 0 = 0
  let defsched :=
    if isFirst && !kEnableMac then
      if !st.master.encode_deferral.isEmpty ||
          decide (frame_id ≥
            st.master.frame_tracking.cur_proc_frame_id + kScheduleQueues) then
        (st.master.encode_deferral ++ [frame_id], ([] : List Nat))
      else (st.master.encode_deferral, [frame_id])
    else (st.master.encode_deferral, [])
  let v := rx1.num_pkts.getD frame_slot 0 + 1
  let rx2 := { rx1 with num_pkts := (rx1.num_pkts.set frame_slot
      (if v = rx1.num_rx_pkts_per_frame then 0 else v)) }
  let master2 := { st.master with encode_deferral := defsched.1 }
  ({ st with rx_counters := rx2, master := master2 }, defsched.2)

/-- kPacketRX case of Agora HandleEvents (agora.cc lines 460-483): a packet at
or beyond cur_sche_frame_id + kFrameWnd logs an error, clears the running
flag and is dropped; otherwise the RX counters are updated, then the packet
tag is pushed on the FFT queue of its frame slot.  The recorder dispatch
before the window check touches no scheduler state. -/
def handlePacketRx (W : Nat) (kinds : SymbolKinds) (kEnableMac : Bool)
    (st : AgoraState) (pkt : RxPkt) : AgoraState × List Nat :=
  if pkt.frame_id ≥ st.master.frame_tracking.cur_sche_frame_id + W then
    ({ st with running := false }, [])
  else
    let r := updateRxCounters W kinds kEnableMac st pkt.frame_id pkt.symbol_id
    ({ r.1 with fft_queue_arr := (r.1.fft_queue_arr.set (pkt.frame_id % W)
        (r.1.fft_queue_arr.getD (pkt.frame_id % W) [] ++ [pkt])) }, r.2)

theorem updateRxCounters_fft_queue (W : Nat) (kinds : SymbolKinds)
    (kEnableMac : Bool) (st : AgoraState) (frame_id symbol_id : Nat) :
    (updateRxCounters W kinds kEnableMac st frame_id symbol_id).1.fft_queue_arr =
      st.fft_queue_arr ∧
    (updateRxCounters W kinds kEnableMac st frame_id symbol_id).1.running =
      st.running := by
  constructor <;> rfl

/-- C2: out-of-window RX is fatal and unprocessed.  When the master dequeues a
kPacketRX event whose frame id is at least cur_sche_frame_id + W, it clears
the running flag, leaves every RX counter and FFT queue untouched, and
schedules nothing; a packet below the window bound leaves the running flag
alone, is tallied by UpdateRxCounters, and its tag is appended to the FFT
queue of its frame slot. -/
theorem handlePacketRx_window (W : Nat) (kinds : SymbolKinds) (mac : Bool)
    (st : AgoraState) (pkt : RxPkt) :
    (pkt.frame_id ≥ st.master.frame_tracking.cur_sche_frame_id + W →
      (handlePacketRx W kinds mac st pkt).1.running = false ∧
      (handlePacketRx W kinds mac st pkt).1.rx_counters = st.rx_counters ∧
      (handlePacketRx W kinds mac st pkt).1.fft_queue_arr = st.fft_queue_arr ∧
      (handlePacketRx W kinds mac st pkt).1.master = st.master ∧
      (handlePacketRx W kinds mac st pkt).2 = []) ∧
    (pkt.frame_id < st.master.frame_tracking.cur_sche_frame_id + W →
      (handlePacketRx W kinds mac st pkt).1.running = st.running ∧
      (handlePacketRx W kinds mac st pkt).1.rx_counters =
        (updateRxCounters W kinds mac st pkt.frame_id pkt.symbol_id).1.rx_counters ∧
      (pkt.frame_id % W < st.fft_queue_arr.length →
        (handlePacketRx W kinds mac st pkt).1.fft_queue_arr.getD (pkt.frame_id % W) [] =
          st.fft_queue_arr.getD (pkt.frame_id % W) [] ++ [pkt])) := by
  constructor
  · intro h
    rw [handlePacketRx, if_pos h]
    exact ⟨rfl, rfl, rfl, rfl, rfl⟩
  · intro h
    rw [handlePacketRx, if_neg (by omega)]
    obtain ⟨hq, hr⟩ := updateRxCounters_fft_queue W kinds mac st pkt.frame_id pkt.symbol_id
    refine ⟨hr, rfl, ?_⟩
    intro hlen
    have hlen2 : pkt.frame_id % W <
        (updateRxCounters W kinds mac st pkt.frame_id pkt.symbol_id).1.fft_queue_arr.length := by
      rw [hq]; exact hlen
    rw [List.getD_eq_getElem?_getD, List.getElem?_set_self hlen2, Option.getD_some, hq]

/-- Witness for C2 at the S6 scenario of the spec: cur_sche = 3, W = 4, an RX
packet for frame 8 trips the shutdown branch, and a packet for frame 3 is
processed normally. -/
def c2State : AgoraState :=
  { running := true,
    master := { frame_tracking := { cur_sche_frame_id := 3, cur_proc_frame_id := 3 },
                schedule_process_flags := 0, encode_deferral := [] },
    rx_counters := { num_pkts := [0, 0, 0, 0], num_pilot_pkts := [0, 0, 0, 0],
                     num_reciprocity_pkts := [0, 0, 0, 0],
                     num_pilot_pkts_per_frame := 4,
                     num_reciprocity_pkts_per_frame := 0,
                     num_rx_pkts_per_frame := 8 },
    fft_queue_arr := [[], [], [], []] }

/-- Symbol classification with no pilot or calibration symbols, for witnesses. -/
def plainKinds : SymbolKinds :=
  { isPilot := fun _ _ => false,
    isCalDlPilot := fun _ _ => false,
    isCalUlPilot := fun _ _ => false }

theorem handlePacketRx_window_witness :
    ((8 : Nat) ≥ 3 + 4 ∧
      (handlePacketRx 4 plainKinds true c2State ⟨8, 1⟩).1.running = false) ∧
    ((3 : Nat) < 3 + 4 ∧
      (handlePacketRx 4 plainKinds true c2State ⟨3, 1⟩).1.fft_queue_arr.getD 3 [] =
        [⟨3, 1⟩]) :=
  ⟨⟨by decide,
    ((handlePacketRx_window 4 plainKinds true c2State ⟨8, 1⟩).1 (by decide)).1⟩,
   ⟨by decide, by
    have h := (((handlePacketRx_window 4 plainKinds true c2State ⟨3, 1⟩).2
      (by decide)).2.2) (by decide)
    simpa using h⟩⟩

/-- Modelled from the spec: one column of a stage counter grid for a single
frame (FrameCounters of counters.h is not part of this source tree; per the
spec, CompleteTask increments tasks_done for a symbol and reports reaching the
task limit, CompleteSymbol increments symbols_done and reports reaching the
symbol limit, and Reset zeroes the column). -/
structure FrameCounters where
  max_symbol_count : Nat
  max_task_count : Nat
  task_count : List Nat
  symbol_count : Nat
  deriving Repr, DecidableEq

/-- Modelled from the spec: CompleteTask for one symbol of the tracked frame —
increment tasks_done and report whether it reached the task limit. -/
def FrameCounters.completeTask (c : FrameCounters) (sym : Nat) :
    Bool × FrameCounters :=
  let v := c.task_count.getD sym 0 + 1
  (v = c.max_task_count, { c with task_count := c.task_count.set sym v })

/-- Modelled from the spec: CompleteSymbol for the tracked frame — increment
symbols_done and report whether it reached the symbol limit. -/
def FrameCounters.completeSymbol (c : FrameCounters) : Bool × FrameCounters :=
  let v := c.symbol_count + 1
  (v = c.max_symbol_count, { c with symbol_count := v })

/-- Modelled from the spec: GetSymbolCount — the symbols done so far for the
tracked frame. -/
def FrameCounters.getSymbolCount (c : FrameCounters) : Nat := c.symbol_count

/-- Modelled from the spec: Reset — zero the column of the tracked frame. -/
def FrameCounters.reset (c : FrameCounters) : FrameCounters :=
  { c with task_count := List.replicate c.task_count.length 0, symbol_count := 0 }

/-- Outcome of the kDemul handler on the pieces modelled here: the demul
counter column and every ScheduleCodeblocks kDecode call it made,
as (frame, symbol) pairs. -/
structure DemulOut where
  counters : FrameCounters
  decode_scheduled : List (Nat × Nat)
  deriving Repr, DecidableEq

/-- kDemul case of Agora HandleEvents (agora.cc lines 526-592) restricted to
the demul counter column of the frame and the Decode scheduling decisions.
hard is the build constant kUplinkHardDemod and bigstation the BigstationMode
configuration.  When the task closes its symbol, Decode is scheduled only with
hard demod disabled; when the last symbol of the frame closes, the hard-demod
path hands over to CheckIncrementScheduleFrame and CheckFrameComplete
(modelled separately) without ever scheduling Decode, while the soft path
resets the demul counters and, under BigstationMode, schedules Decode once
more.  The statistics and EVM recording calls touch only statistics state. -/
def handleDemul (hard bigstation : Bool) (c : FrameCounters)
    (frame symbol : Nat) : DemulOut :=
  let r := c.completeTask symbol
  if r.1 then
    let sched1 : List (Nat × Nat) := if hard = false then [(frame, symbol)] else []
    let r2 := r.2.completeSymbol
    if r2.1 then
      if hard then { counters := r2.2, decode_scheduled := sched1 }
      else
        if bigstation = false then
          { counters := r2.2.reset, decode_scheduled := sched1 }
        else
          { counters := r2.2.reset, decode_scheduled := sched1 ++ [(frame, symbol)] }
    else { counters := r2.2, decode_scheduled := sched1 }
  else { counters := r.2, decode_scheduled := [] }

/-- C8: Decode follows hard-demod mode.  When a kDemul completion closes the
demul counter of (frame, symbol), the handler schedules Decode code-block
tasks for that symbol iff kUplinkHardDemod is disabled; with hard demod
enabled the handler never schedules Decode, and a completion that does not
close the counter schedules nothing. -/
theorem handleDemul_decode (hard bigstation : Bool) (c : FrameCounters)
    (frame symbol : Nat) :
    ((c.completeTask symbol).1 = true →
      ((frame, symbol) ∈ (handleDemul hard bigstation c frame symbol).decode_scheduled ↔
        hard = false)) ∧
    (hard = true → (handleDemul hard bigstation c frame symbol).decode_scheduled = []) ∧
    ((c.completeTask symbol).1 = false →
      (handleDemul hard bigstation c frame symbol).decode_scheduled = []) := by
  by_cases hclose : (c.completeTask symbol).1 = true
  · refine ⟨fun _ => ?_, fun hh => ?_, fun hfalse => absurd hclose (by simp [hfalse])⟩
    · rw [handleDemul, if_pos hclose]
      cases hard <;> cases bigstation <;>
        by_cases h2 : ((c.completeTask symbol).2.completeSymbol).1 = true <;>
          simp [h2]
    · subst hh
      rw [handleDemul, if_pos hclose]
      by_cases h2 : ((c.completeTask symbol).2.completeSymbol).1 = true <;> simp [h2]
  · have hfalse : (c.completeTask symbol).1 = false := by
      cases h : (c.completeTask symbol).1
      · rfl
      · exact absurd h hclose
    refine ⟨fun h => absurd h hclose, fun _ => ?_, fun _ => ?_⟩ <;>
      rw [handleDemul, hfalse] <;> simp

/-- Witness for C8 at a concrete counter: the fourth of four demul blocks of
symbol 0 closes the counter, and with hard demod disabled Decode is scheduled
for (frame 2, symbol 0). -/
def c8Counters : FrameCounters :=
  { max_symbol_count := 2, max_task_count := 4, task_count := [3, 0],
    symbol_count := 0 }

theorem handleDemul_decode_witness :
    ((c8Counters.completeTask 0).1 = true) ∧
    ((2, 0) ∈ (handleDemul false false c8Counters 2 0).decode_scheduled ↔
      false = false) :=
  ⟨by decide, (handleDemul_decode false false c8Counters 2 0).1 (by decide)⟩

/-- Length of the maximal prefix of i, i+1, ... (at most fuel long) whose
elements all satisfy p: the scan position where p first fails. -/
def prefLenAux (p : Nat → Bool) : Nat → Nat → Nat
  | 0, i => i
  | fuel + 1, i => if p i then prefLenAux p fuel (i + 1) else i

theorem prefLenAux_ge (p : Nat → Bool) :
    ∀ fuel i, i ≤ prefLenAux p fuel i := by
  intro fuel
  induction fuel with
  | zero => intro i; exact Nat.le_refl i
  | succ n ih =>
    intro i
    rw [prefLenAux]
    by_cases h : p i = true
    · rw [if_pos h]
      exact Nat.le_trans (Nat.le_succ i) (ih (i + 1))
    · rw [if_neg h]

theorem prefLenAux_le (p : Nat → Bool) :
    ∀ fuel i, prefLenAux p fuel i ≤ i + fuel := by
  intro fuel
  induction fuel with
  | zero => intro i; exact Nat.le_refl i
  | succ n ih =>
    intro i
    rw [prefLenAux]
    by_cases h : p i = true
    · rw [if_pos h]
      have := ih (i + 1)
      omega
    · rw [if_neg h]
      omega

theorem prefLenAux_mem (p : Nat → Bool) :
    ∀ fuel i k, i ≤ k → k < prefLenAux p fuel i → p k = true := by
  intro fuel
  induction fuel with
  | zero =>
    intro i k h1 h2
    rw [prefLenAux] at h2
    omega
  | succ n ih =>
    intro i k h1 h2
    rw [prefLenAux] at h2
    by_cases h : p i = true
    · rw [if_pos h] at h2
      rcases Nat.eq_or_lt_of_le h1 with rfl | hlt
      · exact h
      · exact ih (i + 1) k hlt h2
    · rw [if_neg h] at h2
      omega

theorem prefLenAux_stop (p : Nat → Bool) :
    ∀ fuel i, prefLenAux p fuel i < i + fuel → p (prefLenAux p fuel i) = false := by
  intro fuel
  induction fuel with
  | zero =>
    intro i h
    rw [prefLenAux] at h
    omega
  | succ n ih =>
    intro i h
    rw [prefLenAux] at h ⊢
    by_cases hp : p i = true
    · rw [if_pos hp] at h ⊢
      exact ih (i + 1) (by omega)
    · rw [if_neg hp] at h ⊢
      cases hfalse : p i
      · rfl
      · exact absurd hfalse hp

theorem prefLenAux_eq (p : Nat → Bool) :
    ∀ fuel i n, i ≤ n → n ≤ i + fuel →
      (∀ k, i ≤ k → k < n → p k = true) → (n < i + fuel → p n = false) →
      prefLenAux p fuel i = n := by
  intro fuel
  induction fuel with
  | zero =>
    intro i n h1 h2 _ _
    rw [prefLenAux]
    omega
  | succ m ih =>
    intro i n h1 h2 hall hstop
    rw [prefLenAux]
    rcases Nat.eq_or_lt_of_le h1 with rfl | hlt
    · rw [if_neg (by simp [hstop (by omega)])]
    · rw [if_pos (hall i (Nat.le_refl i) hlt)]
      exact ih (i + 1) n hlt (by omega) (fun k hk => hall k (by omega))
        (fun h => hstop (by omega))

/-- Number of symbols below S whose task tally in evs reached the limit A. -/
def closedCount (evs : List Nat) (A S : Nat) : Nat :=
  ((List.range S).filter (fun s => evs.count s == A)).length

/-- Length of the maximal prefix 0..n-1 of the S downlink symbols whose task
tally in evs reached the limit A. -/
def closedPrefixLen (evs : List Nat) (A S : Nat) : Nat :=
  prefLenAux (fun s => evs.count s == A) S 0

theorem closedPrefixLen_le (evs : List Nat) (A S : Nat) :
    closedPrefixLen evs A S ≤ S := by
  have := prefLenAux_le (fun s => evs.count s == A) S 0
  rw [closedPrefixLen]
  omega

theorem closedCount_le (evs : List Nat) (A S : Nat) : closedCount evs A S ≤ S := by
  have := List.length_filter_le (fun s => evs.count s == A) (List.range S)
  simpa [closedCount] using this

theorem closedPrefixLen_le_closedCount (evs : List Nat) (A S : Nat) :
    closedPrefixLen evs A S ≤ closedCount evs A S := by
  have hle : closedPrefixLen evs A S ≤ S := closedPrefixLen_le evs A S
  have hsplit : List.range S =
      List.range' 0 (closedPrefixLen evs A S) ++
        List.range' (closedPrefixLen evs A S) (S - closedPrefixLen evs A S) := by
    rw [List.range_eq_range']
    have happ := List.range'_append_1 0 (closedPrefixLen evs A S)
      (S - closedPrefixLen evs A S)
    rw [Nat.zero_add] at happ
    rw [happ]
    congr 1
    omega
  have hfull : (List.range' 0 (closedPrefixLen evs A S)).filter
      (fun s => evs.count s == A) = List.range' 0 (closedPrefixLen evs A S) := by
    apply List.filter_eq_self.mpr
    intro a ha
    have hmem : a < closedPrefixLen evs A S := by
      have := List.mem_range'_1.mp ha
      omega
    exact prefLenAux_mem (fun s => evs.count s == A) S 0 a (Nat.zero_le a) hmem
  rw [closedCount, hsplit, List.filter_append, List.length_append, hfull]
  simp

theorem closedCount_full_iff (evs : List Nat) (A S : Nat) :
    closedCount evs A S = S ↔ closedPrefixLen evs A S = S := by
  constructor
  · intro h
    have hself : (List.range S).filter (fun s => evs.count s == A) = List.range S :=
      List.Sublist.eq_of_length (List.filter_sublist _)
        (by rw [← closedCount, h, List.length_range])
    apply prefLenAux_eq
    · exact Nat.zero_le S
    · omega
    · intro k _ hk
      have : k ∈ (List.range S).filter (fun s => evs.count s == A) := by
        rw [hself]
        exact List.mem_range.mpr hk
      exact (List.mem_filter.mp this).2
    · intro h2
      omega
  · intro h
    have h1 := closedPrefixLen_le_closedCount evs A S
    have h2 := closedCount_le evs A S
    omega

/-- Master-side IFFT completion state for one frame: the ifft counter column,
the ifft_cur_frame_for_symbol vector (None modelling the SIZE_MAX sentinel)
and the ifft_next_symbol cursor. -/
structure IfftState where
  counters : FrameCounters
  cur_frame_for_symbol : List (Option Nat)
  next_symbol : Nat
  deriving Repr, DecidableEq

/-- Inner for loop of the kIFFT case (agora.cc lines 794-804): starting at
sym, while the loop bound allows (fuel counts the remaining iterations
sym..GetSymbolCount) and ifft_cur_frame_for_symbol of sym equals the frame,
schedule the TX of sym and continue; stop at the first symbol that is not
continuously available. -/
def txEmitLoop (vec : List (Option Nat)) (f : Nat) : Nat → Nat → List Nat
  | 0, _ => []
  | fuel + 1, sym =>
    if vec.getD sym none = some f then sym :: txEmitLoop vec f fuel (sym + 1)
    else []

/-- kIFFT per-tag handling of Agora HandleEvents (agora.cc lines 776-827)
restricted to one frame f: CompleteTask for the symbol; when it closes, record
the frame in ifft_cur_frame_for_symbol, and if the symbol is the
ifft_next_symbol cursor, schedule TX for every continuously available symbol
from it (advancing the cursor per emission, modelled as one addition);
then CompleteSymbol, and when the frame's last IFFT symbol closes, reset the
cursor to 0 (the downlink-completion increment and the frame-completion check
that follow are modelled separately).  Returns the TX-scheduled downlink
symbol indices in emission order. -/
def handleIfftTag (f : Nat) (st : IfftState) (symbol_idx_dl : Nat) :
    IfftState × List Nat :=
  let r := st.counters.completeTask symbol_idx_dl
  if r.1 then
    let vec := st.cur_frame_for_symbol.set symbol_idx_dl (some f)
    let txs :=
      if symbol_idx_dl = st.next_symbol then
        txEmitLoop vec f (r.2.getSymbolCount + 1 - symbol_idx_dl) symbol_idx_dl
      else []
    let next1 := st.next_symbol + txs.length
    let r2 := r.2.completeSymbol
    let next2 := if r2.1 then 0 else next1
    ({ counters := r2.2, cur_frame_for_symbol := vec, next_symbol := next2 }, txs)
  else
    ({ counters := r.2, cur_frame_for_symbol := st.cur_frame_for_symbol,
       next_symbol := st.next_symbol }, [])

/-- Sequence of kIFFT task completions for one frame, in master handling
order; returns the final state and the concatenated TX schedule. -/
def runIfft (f : Nat) (st : IfftState) : List Nat → IfftState × List Nat
  | [] => (st, [])
  | t :: ts =>
    let r := handleIfftTag f st t
    let rest := runIfft f r.1 ts
    (rest.1, r.2 ++ rest.2)

theorem getD_replicate_of_lt {α : Type} (n k : Nat) (a d : α) (h : k < n) :
    (List.replicate n a).getD k d = a := by
  rw [List.getD_eq_getElem?_getD, List.getElem?_replicate, if_pos h]
  rfl

theorem getD_set_self {α : Type} (l : List α) (n : Nat) (x d : α)
    (h : n < l.length) : (l.set n x).getD n d = x := by
  rw [List.getD_eq_getElem?_getD, List.getElem?_set_self h]
  rfl

theorem getD_set_ne {α : Type} (l : List α) (n m : Nat) (x d : α)
    (h : n ≠ m) : (l.set n x).getD m d = l.getD m d := by
  rw [List.getD_eq_getElem?_getD, List.getElem?_set_ne h,
    ← List.getD_eq_getElem?_getD]

theorem txEmitLoop_spec (vec : List (Option Nat)) (f : Nat) :
    ∀ fuel sym m, sym ≤ m →
      (∀ k, sym ≤ k → k < m → vec.getD k none = some f) →
      vec.getD m none ≠ some f →
      txEmitLoop vec f fuel sym = List.range' sym (min fuel (m - sym)) := by
  intro fuel
  induction fuel with
  | zero =>
    intro sym m _ _ _
    rw [txEmitLoop]
    simp
  | succ n ih =>
    intro sym m h1 hall hstop
    rw [txEmitLoop]
    rcases Nat.eq_or_lt_of_le h1 with rfl | hlt
    · rw [if_neg hstop]
      simp
    · rw [if_pos (hall sym (Nat.le_refl sym) hlt)]
      rw [ih (sym + 1) m hlt (fun k hk => hall k (by omega)) hstop]
      have hmin : min (n + 1) (m - sym) = (min n (m - sym - 1)) + 1 := by omega
      rw [hmin, List.range'_succ]
      congr 2

theorem prefLenAux_ge_of_all (p : Nat → Bool) :
    ∀ fuel i n, i ≤ n → n ≤ i + fuel →
      (∀ k, i ≤ k → k < n → p k = true) → n ≤ prefLenAux p fuel i := by
  intro fuel
  induction fuel with
  | zero =>
    intro i n h1 h2 _
    rw [prefLenAux]
    omega
  | succ m ih =>
    intro i n h1 h2 hall
    rcases Nat.eq_or_lt_of_le h1 with rfl | hlt
    · exact prefLenAux_ge p (m + 1) i
    · rw [prefLenAux, if_pos (hall i (Nat.le_refl i) hlt)]
      exact ih (i + 1) n hlt (by omega) (fun k hk => hall k (by omega))

theorem prefLenAux_congr (p q : Nat → Bool) (hpq : ∀ k, p k = q k) :
    ∀ fuel i, prefLenAux p fuel i = prefLenAux q fuel i := by
  intro fuel
  induction fuel with
  | zero => intro i; rfl
  | succ m ih =>
    intro i
    rw [prefLenAux, prefLenAux, hpq, ih]

theorem filter_length_flip (p q : Nat → Bool) (S s : Nat) (hs : s < S)
    (hps : p s = false) (hqs : q s = true)
    (hoth : ∀ t, t ≠ s → p t = q t) :
    ((List.range S).filter q).length = ((List.range S).filter p).length + 1 := by
  obtain ⟨k, hk⟩ : ∃ k, S - s = k + 1 := ⟨S - s - 1, by omega⟩
  have hsplit : List.range S = List.range' 0 s ++ s :: List.range' (s + 1) k := by
    rw [List.range_eq_range']
    have happ := List.range'_append_1 0 s (S - s)
    rw [Nat.zero_add] at happ
    have hcons : List.range' s (S - s) = s :: List.range' (s + 1) k := by
      rw [hk, List.range'_succ]
    rw [← hcons, happ]
    congr 1
    omega
  have hcongr1 : (List.range' 0 s).filter p = (List.range' 0 s).filter q := by
    apply List.filter_congr
    intro t ht
    have : t < s := by
      have := List.mem_range'_1.mp ht
      omega
    exact hoth t (by omega)
  have hcongr2 : (List.range' (s + 1) k).filter p =
      (List.range' (s + 1) k).filter q := by
    apply List.filter_congr
    intro t ht
    have : s + 1 ≤ t := (List.mem_range'_1.mp ht).1
    exact hoth t (by omega)
  rw [hsplit, List.filter_append, List.filter_append, List.filter_cons,
    List.filter_cons, hps, hqs]
  simp only [List.length_append, hcongr1, hcongr2]
  simp
  omega

theorem count_append_singleton (l : List Nat) (s t : Nat) :
    (l ++ [s]).count t = l.count t + (if t = s then 1 else 0) := by
  rw [List.count_append]
  rcases eq_or_ne t s with rfl | h
  · simp
  · simp [List.count_singleton', h]

theorem completeTask_fst (c : FrameCounters) (sym : Nat) :
    (c.completeTask sym).1 = decide (c.task_count.getD sym 0 + 1 = c.max_task_count) := rfl

theorem completeTask_snd (c : FrameCounters) (sym : Nat) :
    (c.completeTask sym).2 =
      { c with task_count := c.task_count.set sym (c.task_count.getD sym 0 + 1) } := rfl

theorem completeSymbol_fst (c : FrameCounters) :
    (c.completeSymbol).1 = decide (c.symbol_count + 1 = c.max_symbol_count) := rfl

theorem completeSymbol_snd (c : FrameCounters) :
    (c.completeSymbol).2 = { c with symbol_count := c.symbol_count + 1 } := rfl

theorem handleIfftTag_of_not_close (f : Nat) (st : IfftState) (s : Nat)
    (h : (st.counters.completeTask s).1 = false) :
    handleIfftTag f st s =
      ({ counters := (st.counters.completeTask s).2,
         cur_frame_for_symbol := st.cur_frame_for_symbol,
         next_symbol := st.next_symbol }, []) := by
  simp only [handleIfftTag, h]
  simp

theorem handleIfftTag_of_close (f : Nat) (st : IfftState) (s : Nat)
    (h : (st.counters.completeTask s).1 = true) :
    handleIfftTag f st s =
      ({ counters := ((st.counters.completeTask s).2.completeSymbol).2,
         cur_frame_for_symbol := st.cur_frame_for_symbol.set s (some f),
         next_symbol :=
           if ((st.counters.completeTask s).2.completeSymbol).1 then 0
           else st.next_symbol +
             (if s = st.next_symbol then
               txEmitLoop (st.cur_frame_for_symbol.set s (some f)) f
                 ((st.counters.completeTask s).2.getSymbolCount + 1 - s) s
              else []).length },
       if s = st.next_symbol then
         txEmitLoop (st.cur_frame_for_symbol.set s (some f)) f
           ((st.counters.completeTask s).2.getSymbolCount + 1 - s) s
       else []) := by
  simp only [handleIfftTag, h]
  simp

/-- Invariant tying a processed prefix of kIFFT task completions for frame f
to the IFFT state: the counter column tallies the events, the symbol vector
marks exactly the closed symbols, the symbol count is the number of closed
symbols and the cursor sits at the closed prefix (0 once the frame closed). -/
structure IfftInv (A S f : Nat) (done : List Nat) (st : IfftState) : Prop where
  hmaxt : st.counters.max_task_count = A
  hmaxs : st.counters.max_symbol_count = S
  htlen : st.counters.task_count.length = S
  hvlen : st.cur_frame_for_symbol.length = S
  htask : ∀ s, s < S → st.counters.task_count.getD s 0 = done.count s
  hvec : ∀ s, st.cur_frame_for_symbol.getD s none =
    (if done.count s = A ∧ s < S then some f else none)
  hsym : st.counters.symbol_count = closedCount done A S
  hnext : st.next_symbol =
    (if closedPrefixLen done A S = S then 0 else closedPrefixLen done A S)

theorem closedPrefixLen_mem (evs : List Nat) (A S k : Nat)
    (hk : k < closedPrefixLen evs A S) : evs.count k = A := by
  have := prefLenAux_mem (fun t => evs.count t == A) S 0 k (Nat.zero_le k) hk
  simpa using this

theorem closedPrefixLen_stop (evs : List Nat) (A S : Nat)
    (h : closedPrefixLen evs A S < S) :
    ¬ (evs.count (closedPrefixLen evs A S) = A) := by
  have h2 : prefLenAux (fun t => evs.count t == A) S 0 < 0 + S := by
    rw [Nat.zero_add]
    exact h
  have := prefLenAux_stop (fun t => evs.count t == A) S 0 h2
  simpa using this

theorem closedPrefixLen_ge_of_all (evs : List Nat) (A S n : Nat) (h2 : n ≤ S)
    (hall : ∀ k, k < n → evs.count k = A) : n ≤ closedPrefixLen evs A S :=
  prefLenAux_ge_of_all (fun t => evs.count t == A) S 0 n (Nat.zero_le n)
    (by omega) (fun k _ hk => by simp [hall k hk])

theorem closedPrefixLen_unique (evs : List Nat) (A S n : Nat) (h2 : n ≤ S)
    (hall : ∀ k, k < n → evs.count k = A)
    (hstop : n < S → ¬ (evs.count n = A)) : closedPrefixLen evs A S = n :=
  prefLenAux_eq (fun t => evs.count t == A) S 0 n (Nat.zero_le n) (by omega)
    (fun k _ hk => by simp [hall k hk])
    (fun h => by simp [hstop (by omega)])

theorem handleIfftTag_step (A S f : Nat) (done : List Nat) (st : IfftState)
    (s : Nat) (hs : s < S) (hinv : IfftInv A S f done st)
    (hcap : done.count s + 1 ≤ A) :
    IfftInv A S f (done ++ [s]) (handleIfftTag f st s).1 ∧
    (handleIfftTag f st s).2 =
      List.range' (closedPrefixLen done A S)
        (closedPrefixLen (done ++ [s]) A S - closedPrefixLen done A S) := by
  obtain ⟨hmaxt, hmaxs, htlen, hvlen, htask, hvec, hsym, hnext⟩ := hinv
  have hcnt : ∀ t, (done ++ [s]).count t = done.count t + (if t = s then 1 else 0) :=
    count_append_singleton done s
  have hcnt_s : (done ++ [s]).count s = done.count s + 1 := by rw [hcnt]; simp
  have hcnt_ne : ∀ t, t ≠ s → (done ++ [s]).count t = done.count t := by
    intro t ht
    rw [hcnt, if_neg ht, Nat.add_zero]
  by_cases hclose : done.count s + 1 = A
  · -- the task closes its symbol
    have hnotclosed : ¬ (done.count s = A) := by omega
    have hr1 : (st.counters.completeTask s).1 = true := by
      rw [completeTask_fst, htask s hs, hmaxt]
      simp [hclose]
    rw [handleIfftTag_of_close f st s hr1]
    have hμle : closedPrefixLen done A S ≤ S := closedPrefixLen_le done A S
    have hμs : closedPrefixLen done A S ≤ s := by
      by_contra hgt
      exact hnotclosed (closedPrefixLen_mem done A S s (by omega))
    have hp's : ((done ++ [s]).count s == A) = true := by
      rw [hcnt_s]
      simp [hclose]
    have hps : (done.count s == A) = false := by simp [hnotclosed]
    have hp'eq : ∀ t, t ≠ s →
        (done.count t == A) = ((done ++ [s]).count t == A) := by
      intro t ht
      rw [hcnt_ne t ht]
    have hcc : closedCount (done ++ [s]) A S = closedCount done A S + 1 :=
      filter_length_flip (fun t => done.count t == A)
        (fun t => (done ++ [s]).count t == A) S s hs hps hp's hp'eq
    have hμ'le : closedPrefixLen (done ++ [s]) A S ≤ S :=
      closedPrefixLen_le (done ++ [s]) A S
    have hμ'cc : closedPrefixLen (done ++ [s]) A S ≤ closedCount done A S + 1 := by
      have := closedPrefixLen_le_closedCount (done ++ [s]) A S
      omega
    have hμ'mem : ∀ k, k < closedPrefixLen (done ++ [s]) A S →
        (done ++ [s]).count k = A :=
      fun k hk => closedPrefixLen_mem (done ++ [s]) A S k hk
    have hμ'stop : closedPrefixLen (done ++ [s]) A S < S →
        ¬ ((done ++ [s]).count (closedPrefixLen (done ++ [s]) A S) = A) :=
      fun hlt => closedPrefixLen_stop (done ++ [s]) A S hlt
    have hvlen' : (st.cur_frame_for_symbol.set s (some f)).length = S := by
      rw [List.length_set]
      exact hvlen
    have hvec' : ∀ t, (st.cur_frame_for_symbol.set s (some f)).getD t none =
        (if (done ++ [s]).count t = A ∧ t < S then some f else none) := by
      intro t
      rcases eq_or_ne t s with rfl | hts
      · rw [getD_set_self _ _ _ _ (by omega)]
        rw [if_pos ⟨by rw [hcnt_s]; exact hclose, hs⟩]
      · rw [getD_set_ne _ _ _ _ _ (Ne.symm hts), hvec t, hcnt_ne t hts]
    have hfull_iff : closedCount done A S + 1 = S ↔
        closedPrefixLen (done ++ [s]) A S = S := by
      rw [← hcc]
      exact closedCount_full_iff (done ++ [s]) A S
    have hsymcnt : (st.counters.completeTask s).2.getSymbolCount =
        closedCount done A S := by
      rw [completeTask_snd]
      exact hsym
    have hr2fst : ((st.counters.completeTask s).2.completeSymbol).1 =
        decide (closedCount done A S + 1 = S) := by
      rw [completeSymbol_fst, completeTask_snd]
      simp only []
      rw [hsym, hmaxs]
    have htask' : ∀ t, t < S →
        ((st.counters.completeTask s).2.completeSymbol).2.task_count.getD t 0 =
          (done ++ [s]).count t := by
      intro t ht
      rw [completeSymbol_snd, completeTask_snd]
      simp only []
      rcases eq_or_ne t s with rfl | hts
      · rw [getD_set_self _ _ _ _ (by omega), htask t ht, hcnt_s]
      · rw [getD_set_ne _ _ _ _ _ (Ne.symm hts), htask t ht, hcnt_ne t hts]
    have hsym' : ((st.counters.completeTask s).2.completeSymbol).2.symbol_count =
        closedCount (done ++ [s]) A S := by
      rw [completeSymbol_snd, completeTask_snd]
      simp only []
      rw [hsym, hcc]
    by_cases hcase : s = st.next_symbol
    · -- the closed symbol is the cursor: the TX run is emitted
      have hnext0 : st.next_symbol = closedPrefixLen done A S := by
        rw [hnext, if_neg (by omega)]
      have hsμ : s = closedPrefixLen done A S := by rw [hcase, hnext0]
      have hμ'ge : s + 1 ≤ closedPrefixLen (done ++ [s]) A S := by
        apply closedPrefixLen_ge_of_all _ _ _ _ (by omega)
        intro k hk
        rcases eq_or_ne k s with rfl | hks
        · rw [hcnt_s]
          exact hclose
        · rw [hcnt_ne k hks]
          exact closedPrefixLen_mem done A S k (by omega)
      have htxs : txEmitLoop (st.cur_frame_for_symbol.set s (some f)) f
          ((st.counters.completeTask s).2.getSymbolCount + 1 - s) s =
          List.range' s (closedPrefixLen (done ++ [s]) A S - s) := by
        rw [hsymcnt]
        rw [txEmitLoop_spec (st.cur_frame_for_symbol.set s (some f)) f
          (closedCount done A S + 1 - s) s (closedPrefixLen (done ++ [s]) A S)
          (by omega) ?hall ?hstop]
        · congr 1
          omega
        case hall =>
          intro k hk1 hk2
          rw [hvec' k]
          rw [if_pos ⟨hμ'mem k hk2, by omega⟩]
        case hstop =>
          rcases Nat.lt_or_ge (closedPrefixLen (done ++ [s]) A S) S with hlt | hge
          · rw [hvec' (closedPrefixLen (done ++ [s]) A S)]
            rw [if_neg (fun hand => hμ'stop hlt hand.1)]
            simp
          · rw [List.getD_eq_default _ _ (by omega : (st.cur_frame_for_symbol.set s (some f)).length ≤ closedPrefixLen (done ++ [s]) A S)]
            simp
      refine ⟨⟨?_, ?_, ?_, hvlen', htask', hvec', hsym', ?_⟩, ?_⟩
      · rw [completeSymbol_snd, completeTask_snd]
        exact hmaxt
      · rw [completeSymbol_snd, completeTask_snd]
        exact hmaxs
      · rw [completeSymbol_snd, completeTask_snd]
        simp only []
        rw [List.length_set]
        exact htlen
      · -- cursor after the emission and possible frame closure
        simp only [if_pos hcase, hr2fst, htxs]
        rw [List.length_range']
        by_cases hfin : closedCount done A S + 1 = S
        · rw [if_pos (by simp [hfin]), if_pos (hfull_iff.mp hfin)]
        · rw [if_neg (by simp [hfin]), if_neg (fun h => hfin (hfull_iff.mpr h))]
          rw [hnext0]
          omega
      · simp only [if_pos hcase, htxs]
        rw [← hsμ]
    · -- the closed symbol is ahead of the cursor: nothing is emitted
      have hnext0 : st.next_symbol = closedPrefixLen done A S := by
        rw [hnext, if_neg (by omega)]
      have hsgt : closedPrefixLen done A S < s := by
        rcases Nat.eq_or_lt_of_le hμs with heq | hlt
        · exact absurd (heq.symm.trans hnext0.symm) hcase
        · exact hlt
      have hμstop : ¬ (done.count (closedPrefixLen done A S) = A) :=
        closedPrefixLen_stop done A S (by omega)
      have hμ'eq : closedPrefixLen (done ++ [s]) A S = closedPrefixLen done A S := by
        apply closedPrefixLen_unique _ _ _ _ (by omega)
        · intro k hk
          rw [hcnt_ne k (by omega)]
          exact closedPrefixLen_mem done A S k hk
        · intro hlt
          rw [hcnt_ne _ (by omega)]
          exact hμstop
      have hnotfull : ¬ (closedCount done A S + 1 = S) := by
        intro hfin
        have := hfull_iff.mp hfin
        omega
      refine ⟨⟨?_, ?_, ?_, hvlen', htask', hvec', hsym', ?_⟩, ?_⟩
      · rw [completeSymbol_snd, completeTask_snd]
        exact hmaxt
      · rw [completeSymbol_snd, completeTask_snd]
        exact hmaxs
      · rw [completeSymbol_snd, completeTask_snd]
        simp only []
        rw [List.length_set]
        exact htlen
      · simp only [if_neg hcase, hr2fst]
        rw [if_neg (by simp [hnotfull]), hμ'eq, if_neg (by omega)]
        simp [hnext0]
      · simp only [if_neg hcase, hμ'eq]
        simp
  · -- the task does not close its symbol
    have hr1 : (st.counters.completeTask s).1 = false := by
      rw [completeTask_fst, htask s hs, hmaxt]
      simp [hclose]
    rw [handleIfftTag_of_not_close f st s hr1]
    have hpeq : ∀ t, (done.count t == A) = ((done ++ [s]).count t == A) := by
      intro t
      rcases eq_or_ne t s with rfl | ht
      · rw [hcnt_s]
        have h2 : ¬ (done.count t = A) := by omega
        simp [h2, hclose]
      · rw [hcnt_ne t ht]
    have hμeq : closedPrefixLen (done ++ [s]) A S = closedPrefixLen done A S := by
      rw [closedPrefixLen, closedPrefixLen]
      exact (prefLenAux_congr _ _ hpeq S 0).symm
    have hceq : closedCount (done ++ [s]) A S = closedCount done A S := by
      rw [closedCount, closedCount]
      exact (List.filter_congr (fun t _ => hpeq t)).symm ▸ rfl
    refine ⟨⟨?_, ?_, ?_, hvlen, ?_, ?_, ?_, ?_⟩, ?_⟩
    · rw [completeTask_snd]
      exact hmaxt
    · rw [completeTask_snd]
      exact hmaxs
    · rw [completeTask_snd]
      simp only []
      rw [List.length_set]
      exact htlen
    · intro t ht
      rw [completeTask_snd]
      simp only []
      rcases eq_or_ne t s with rfl | hts
      · rw [getD_set_self _ _ _ _ (by omega), htask t ht, hcnt_s]
      · rw [getD_set_ne _ _ _ _ _ (Ne.symm hts), htask t ht, hcnt_ne t hts]
    · intro t
      rcases eq_or_ne t s with rfl | hts
      · rw [hvec t, hcnt_s]
        have h2 : ¬ (done.count t = A) := by omega
        have h3 : ¬ (done.count t + 1 = A) := hclose
        simp [h2, h3]
      · rw [hvec t, hcnt_ne t hts]
    · rw [completeTask_snd]
      simp only []
      rw [hsym, hceq]
    · rw [hμeq]
      exact hnext
    · rw [hμeq]
      simp

theorem closedPrefixLen_nil (A S : Nat) (hA : 0 < A) :
    closedPrefixLen [] A S = 0 := by
  apply closedPrefixLen_unique _ _ _ _ (Nat.zero_le S)
  · intro k hk
    omega
  · intro _
    simp
    omega

theorem runIfft_spec (A S f : Nat) :
    ∀ evs done st, IfftInv A S f done st →
      (∀ s ∈ evs, s < S) →
      (∀ t, (done ++ evs).count t ≤ A) →
      IfftInv A S f (done ++ evs) (runIfft f st evs).1 ∧
      (runIfft f st evs).2 = List.range' (closedPrefixLen done A S)
        (closedPrefixLen (done ++ evs) A S - closedPrefixLen done A S) := by
  intro evs
  induction evs with
  | nil =>
    intro done st hinv _ _
    rw [runIfft]
    constructor
    · simpa using hinv
    · simp
  | cons t ts ih =>
    intro done st hinv hmem hcap
    rw [runIfft]
    have hts : t < S := hmem t (List.mem_cons_self t ts)
    have hcapt : done.count t + 1 ≤ A := by
      have h1 := hcap t
      rw [List.count_append, List.count_cons_self] at h1
      omega
    obtain ⟨hinv1, htx1⟩ := handleIfftTag_step A S f done st t hts hinv hcapt
    have hassoc : done ++ t :: ts = (done ++ [t]) ++ ts := by simp
    obtain ⟨hinv2, htx2⟩ := ih (done ++ [t]) (handleIfftTag f st t).1 hinv1
      (fun s hx => hmem s (List.mem_cons_of_mem t hx))
      (fun u => by rw [← hassoc]; exact hcap u)
    constructor
    · rw [hassoc]
      exact hinv2
    · show (handleIfftTag f st t).2 ++ (runIfft f (handleIfftTag f st t).1 ts).2 =
        List.range' (closedPrefixLen done A S)
          (closedPrefixLen (done ++ t :: ts) A S - closedPrefixLen done A S)
      rw [hassoc, htx1, htx2]
      have hm1 : closedPrefixLen done A S ≤ closedPrefixLen (done ++ [t]) A S := by
        apply closedPrefixLen_ge_of_all _ _ _ _ (closedPrefixLen_le done A S)
        intro k hk
        have h1 : done.count k = A := closedPrefixLen_mem done A S k hk
        have h2 := hcap k
        have hsplit : (t :: ts).count k = ([t] : List Nat).count k + ts.count k := by
          rw [show (t :: ts) = [t] ++ ts from rfl, List.count_append]
        rw [List.count_append, hsplit] at h2
        rw [List.count_append]
        omega
      have hm2 : closedPrefixLen (done ++ [t]) A S ≤
          closedPrefixLen ((done ++ [t]) ++ ts) A S := by
        apply closedPrefixLen_ge_of_all _ _ _ _ (closedPrefixLen_le (done ++ [t]) A S)
        intro k hk
        have h1 : (done ++ [t]).count k = A := closedPrefixLen_mem (done ++ [t]) A S k hk
        have h2 := hcap k
        have hsplit : (t :: ts).count k = ([t] : List Nat).count k + ts.count k := by
          rw [show (t :: ts) = [t] ++ ts from rfl, List.count_append]
        rw [List.count_append, hsplit] at h2
        rw [List.count_append, List.count_append]
        rw [List.count_append] at h1
        omega
      obtain ⟨d1, hd1⟩ : ∃ d1, closedPrefixLen (done ++ [t]) A S =
          closedPrefixLen done A S + d1 := ⟨_, (Nat.add_sub_cancel' hm1).symm⟩
      obtain ⟨d2, hd2⟩ : ∃ d2, closedPrefixLen ((done ++ [t]) ++ ts) A S =
          closedPrefixLen (done ++ [t]) A S + d2 := ⟨_, (Nat.add_sub_cancel' hm2).symm⟩
      rw [hd2, hd1]
      have e1 : closedPrefixLen done A S + d1 - closedPrefixLen done A S = d1 := by
        omega
      have e2 : closedPrefixLen done A S + d1 + d2 -
          (closedPrefixLen done A S + d1) = d2 := by omega
      have e3 : closedPrefixLen done A S + d1 + d2 - closedPrefixLen done A S =
          d1 + d2 := by omega
      rw [e1, e2, e3]
      have key := List.range'_append_1 (closedPrefixLen done A S) d1 d2
      rw [key, Nat.add_comm d2 d1]

/-- Initial IFFT bookkeeping for a fresh frame, as set by InitializeCounters:
zeroed counter column of S downlink symbols with task limit A (BsAntNum), the
symbol vector at the SIZE_MAX sentinel everywhere, cursor at 0. -/
def ifftInit (A S : Nat) : IfftState :=
  { counters := { max_symbol_count := S, max_task_count := A,
                  task_count := List.replicate S 0, symbol_count := 0 },
    cur_frame_for_symbol := List.replicate S none,
    next_symbol := 0 }

theorem ifftInit_inv (A S f : Nat) (hA : 0 < A) :
    IfftInv A S f [] (ifftInit A S) := by
  refine ⟨rfl, rfl, by simp [ifftInit], by simp [ifftInit], ?_, ?_, ?_, ?_⟩
  · intro s hs
    show (List.replicate S 0).getD s 0 = List.count s []
    rw [getD_replicate_of_lt _ _ _ _ hs]
    simp
  · intro s
    show (List.replicate S (none : Option Nat)).getD s none = _
    have hnone : (List.replicate S (none : Option Nat)).getD s none = none := by
      rcases Nat.lt_or_ge s S with h | h
      · exact getD_replicate_of_lt _ _ _ _ h
      · exact List.getD_eq_default _ _ (by simpa using h)
    rw [hnone, if_neg]
    rintro ⟨hc, -⟩
    simp at hc
    omega
  · show (0 : Nat) = closedCount [] A S
    rw [closedCount]
    have : (List.range S).filter (fun s => List.count s [] == A) = [] := by
      apply List.filter_eq_nil_iff.mpr
      intro a _
      simp
      omega
    rw [this]
    rfl
  · show (0 : Nat) = _
    rw [closedPrefixLen_nil A S hA]
    have hS0 : ¬ (0 = S) ∨ 0 = S := by omega
    rcases hS0 with h | h
    · rw [if_neg h]
    · rw [if_pos h]

/-- C10: per-frame TX ordering.  For every order of kIFFT task completions of
frame f in which each of the S downlink symbols receives at most its A =
BsAntNum tasks, the PacketTX schedule emitted by the handler is exactly the
maximal closed prefix of downlink symbol indices in strictly ascending order;
a symbol's TX is scheduled precisely when its own IFFT counter and those of
all lower-indexed downlink symbols have closed (an out-of-order closure is
recorded in ifft_cur_frame_for_symbol and postponed); and when every symbol
of the frame has closed, the ifft_next_symbol cursor has been reset to 0. -/
theorem ifft_tx_in_order (A S f : Nat) (evs : List Nat) (hA : 0 < A)
    (hmem : ∀ s ∈ evs, s < S) (hcnt : ∀ t, evs.count t ≤ A) :
    (runIfft f (ifftInit A S) evs).2 = List.range (closedPrefixLen evs A S) ∧
    List.Pairwise (· < ·) (runIfft f (ifftInit A S) evs).2 ∧
    (∀ s, s ∈ (runIfft f (ifftInit A S) evs).2 ↔
      (s < S ∧ ∀ t, t ≤ s → evs.count t = A)) ∧
    ((∀ s, s < S → evs.count s = A) →
      (runIfft f (ifftInit A S) evs).1.next_symbol = 0) := by
  have hinv0 := ifftInit_inv A S f hA
  obtain ⟨hinvF, htxs⟩ := runIfft_spec A S f evs [] (ifftInit A S) hinv0 hmem
    (fun t => by rw [List.nil_append]; exact hcnt t)
  rw [List.nil_append] at hinvF htxs
  rw [closedPrefixLen_nil A S hA, Nat.sub_zero] at htxs
  have hrange : (runIfft f (ifftInit A S) evs).2 =
      List.range (closedPrefixLen evs A S) := by
    rw [htxs, List.range_eq_range']
  refine ⟨hrange, ?_, ?_, ?_⟩
  · rw [hrange]
    exact List.pairwise_lt_range _
  · intro s
    rw [hrange, List.mem_range]
    constructor
    · intro hlt
      have hle := closedPrefixLen_le evs A S
      refine ⟨by omega, ?_⟩
      intro t ht
      exact closedPrefixLen_mem evs A S t (by omega)
    · rintro ⟨hsS, hall⟩
      have : s + 1 ≤ closedPrefixLen evs A S := by
        apply closedPrefixLen_ge_of_all _ _ _ _ (by omega)
        intro k hk
        exact hall k (by omega)
      omega
  · intro hall
    have hfull : closedPrefixLen evs A S = S := by
      apply closedPrefixLen_unique _ _ _ _ (Nat.le_refl S) hall
      intro h
      omega
    rw [hinvF.hnext, hfull, if_pos rfl]

/-- Witness for C10: completions arriving in the order symbol 1, symbol 0,
symbol 2 (two tasks each) postpone the TX of symbol 1 until symbol 0 closes,
then emit 0, 1, 2 in ascending order and reset the cursor. -/
theorem ifft_tx_in_order_witness :
    ((0 : Nat) < 2 ∧ (∀ s ∈ [1, 1, 0, 0, 2, 2], s < 3) ∧
      (∀ t, List.count t [1, 1, 0, 0, 2, 2] ≤ 2)) ∧
    (runIfft 7 (ifftInit 2 3) [1, 1, 0, 0, 2, 2]).2 =
      List.range (closedPrefixLen [1, 1, 0, 0, 2, 2] 2 3) :=
  ⟨⟨by decide, by decide, fun t => by
      rcases Nat.lt_or_ge t 3 with h | h
      · interval_cases t <;> decide
      · have : t ∉ [1, 1, 0, 0, 2, 2] := by
          intro hmem
          fin_cases hmem <;> omega
        rw [List.count_eq_zero.mpr this]
        omega⟩,
    (ifft_tx_in_order 2 3 7 [1, 1, 0, 0, 2, 2] (by decide) (by decide)
      (fun t => by
        rcases Nat.lt_or_ge t 3 with h | h
        · interval_cases t <;> decide
        · have : t ∉ [1, 1, 0, 0, 2, 2] := by
            intro hmem
            fin_cases hmem <;> omega
          rw [List.count_eq_zero.mpr this]
          omega)).1⟩

end Savannah
